import Mathlib

/-!
# Verification of the redaction engine of `@chrismessina/raycast-logger`

Shallow embedding of `src/redaction.ts` (`maskEmail`, `redactString`,
`redactValueByKey`, `sanitizeArgs`).  Strings are Lean `String`s /
`List Char`; each JavaScript `String.prototype.replace(regexp, …)` in
`redactString` is embedded as a dedicated left-to-right scanner that follows
the leftmost, ordered-alternative, greedy-with-backtracking semantics of the
concrete regular expression it replaces.
-/

namespace Redaction

/-- The JS RegExp `\s` class: WhiteSpace ∪ LineTerminator of ECMA-262. -/
def isJsWs (c : Char) : Bool :=
  c == ' ' || c == '\t' || c == '\n' || c == '\r' ||
  c.val == 0x0b || c.val == 0x0c || c.val == 0xa0 || c.val == 0x1680 ||
  (0x2000 ≤ c.val && c.val ≤ 0x200a) ||
  c.val == 0x2028 || c.val == 0x2029 || c.val == 0x202f || c.val == 0x205f ||
  c.val == 0x3000 || c.val == 0xfeff

/-- The JS RegExp `\d` class (ASCII digits only). -/
def isDigitC (c : Char) : Bool := '0' ≤ c && c ≤ '9'

/-- `[A-Za-z]`. -/
def isAsciiLetter (c : Char) : Bool := ('a' ≤ c && c ≤ 'z') || ('A' ≤ c && c ≤ 'Z')

/-- `[a-f0-9]` with the `i` flag, i.e. `[A-Fa-f0-9]`. -/
def isHexC (c : Char) : Bool := isDigitC c || ('a' ≤ c && c ≤ 'f') || ('A' ≤ c && c ≤ 'F')

/-- `[A-Za-z0-9+/]` (base64 alphabet). -/
def isB64C (c : Char) : Bool := isAsciiLetter c || isDigitC c || c == '+' || c == '/'

/-- `[A-Za-z0-9._%+-]` (first character of the email local part). -/
def isEmailStartC (c : Char) : Bool :=
  isAsciiLetter c || isDigitC c || c == '.' || c == '_' || c == '%' || c == '+' || c == '-'

/-- `[A-Za-z0-9.-]` (email domain characters). -/
def isDomainC (c : Char) : Bool := isAsciiLetter c || isDigitC c || c == '.' || c == '-'

/-- Case-insensitive literal match (the pattern is given in ASCII lower case,
mirroring JS `/i` canonicalization on ASCII letters, which never identifies a
non-ASCII character with an ASCII one in non-Unicode mode).  On success,
returns the original matched text (case preserved, for `$1` substitutions)
and the remaining input. -/
def ciStrip : List Char → List Char → Option (List Char × List Char)
  | [], l => some ([], l)
  | _ :: _, [] => none
  | p :: ps, c :: cs =>
    if c.toLower == p then
      match ciStrip ps cs with
      | some (m, r) => some (c :: m, r)
      | none => none
    else none

/-- One global regex-replace pass (`str.replace(/…/g, …)`): scan left to
right; at each position attempt a match with `try1`; on a match emit the
replacement and resume immediately after the matched text, otherwise keep the
character and move one position right.  `try1 l = some (rep, n)` means the
regex matches a prefix of `l` of length `n + 1` (every pattern of this engine
matches at least one character) and rewrites it to `rep`. -/
def globalReplaceAux (try1 : List Char → Option (List Char × Nat)) :
    Nat → List Char → List Char
  | _, [] => []
  | 0, l => l
  | fuel + 1, c :: rest =>
    match try1 (c :: rest) with
    | some (rep, n) => rep ++ globalReplaceAux try1 fuel (rest.drop n)
    | none => c :: globalReplaceAux try1 fuel rest

/-- Entry point: since every step consumes at least one character and one unit
of fuel, starting with `fuel = l.length` the `fuel = 0` fallback (which
returns the rest unscanned) is never reached. -/
def globalReplace (try1 : List Char → Option (List Char × Nat)) (l : List Char) :
    List Char :=
  globalReplaceAux try1 l.length l

theorem globalReplaceAux_fuel (try1 : List Char → Option (List Char × Nat)) :
    ∀ (f : Nat) (l : List Char) (f' : Nat), l.length ≤ f → l.length ≤ f' →
      globalReplaceAux try1 f l = globalReplaceAux try1 f' l := by
  intro f
  induction f with
  | zero =>
    intro l f' hf _
    have : l = [] := List.eq_nil_of_length_eq_zero (Nat.le_zero.mp hf)
    subst this
    cases f' <;> rfl
  | succ g ih =>
    intro l f' hf hf'
    cases l with
    | nil => cases f' <;> rfl
    | cons c rest =>
      cases f' with
      | zero => simp at hf'
      | succ g' =>
        simp only [List.length_cons, Nat.succ_le_succ_iff] at hf hf'
        show globalReplaceAux try1 (g + 1) (c :: rest) =
          globalReplaceAux try1 (g' + 1) (c :: rest)
        simp only [globalReplaceAux]
        cases ht : try1 (c :: rest) with
        | none => rw [ih rest g' hf hf']
        | some p =>
          obtain ⟨rep, n⟩ := p
          show rep ++ globalReplaceAux try1 g (rest.drop n) =
            rep ++ globalReplaceAux try1 g' (rest.drop n)
          rw [ih (rest.drop n) g' (le_trans (List.length_drop _ _ ▸ Nat.sub_le _ _) hf)
            (le_trans (List.length_drop _ _ ▸ Nat.sub_le _ _) hf')]

/-- Step equation: no match at the current position keeps the character. -/
theorem globalReplace_keep {try1 : List Char → Option (List Char × Nat)}
    {c : Char} {l : List Char} (h : try1 (c :: l) = none) :
    globalReplace try1 (c :: l) = c :: globalReplace try1 l := by
  simp only [globalReplace, List.length_cons, globalReplaceAux, h]

/-- Step equation: a match emits the replacement and resumes after the
consumed text. -/
theorem globalReplace_match {try1 : List Char → Option (List Char × Nat)}
    {c : Char} {l : List Char} {rep : List Char} {n : Nat}
    (h : try1 (c :: l) = some (rep, n)) :
    globalReplace try1 (c :: l) = rep ++ globalReplace try1 (l.drop n) := by
  simp only [globalReplace, List.length_cons, globalReplaceAux, h]
  rw [globalReplaceAux_fuel try1 l.length (l.drop n) (l.drop n).length
    (List.length_drop _ _ ▸ Nat.sub_le _ _) le_rfl]

/-- Induction along the structure of a global-replace scan. -/
theorem scan_induction (t : List Char → Option (List Char × Nat))
    (P : List Char → Prop) (h0 : P [])
    (hkeep : ∀ c l, t (c :: l) = none → P l → P (c :: l))
    (hrepl : ∀ c l rep n, t (c :: l) = some (rep, n) → P (l.drop n) → P (c :: l)) :
    ∀ l, P l := by
  have key : ∀ (m : Nat) (l : List Char), l.length ≤ m → P l := by
    intro m
    induction m with
    | zero =>
      intro l hl
      have : l = [] := List.eq_nil_of_length_eq_zero (Nat.le_zero.mp hl)
      subst this; exact h0
    | succ k ih =>
      intro l hl
      cases l with
      | nil => exact h0
      | cons c rest =>
        simp only [List.length_cons, Nat.succ_le_succ_iff] at hl
        cases ht : t (c :: rest) with
        | none => exact hkeep c rest ht (ih rest hl)
        | some p =>
          exact hrepl c rest p.1 p.2 (by rw [ht])
            (ih (rest.drop p.2) (le_trans (List.length_drop _ _ ▸ Nat.sub_le _ _) hl))
  exact fun l => key l.length l le_rfl

/-- Pass 1, `/bearer\s+[^\s"']+/gi` → `"Bearer ***"`. -/
def tryBearer (l : List Char) : Option (List Char × Nat) :=
  match ciStrip "bearer".data l with
  | none => none
  | some (_, r1) =>
    let ws := r1.takeWhile isJsWs
    if ws.isEmpty then none
    else
      let r2 := r1.drop ws.length
      let v := r2.takeWhile (fun c => !(isJsWs c) && c != '"' && c != '\'')
      if v.isEmpty then none
      else some ("Bearer ***".data, 5 + ws.length + v.length)

/-- The alternation `(password|pass|pwd|secret|token|auth|authorization|key)`
in JS order of alternatives. -/
def kvKeywords : List (List Char) :=
  ["password".data, "pass".data, "pwd".data, "secret".data, "token".data,
   "auth".data, "authorization".data, "key".data]

/-- Pass 2, `/(password|pass|pwd|secret|token|auth|authorization|key)\s*[:=]\s*[^\s&"']+/gi`
→ `"$1=***"`: try each alternative in order; on the first whose tail also
matches, replace with the original keyword text followed by `=***`. -/
def tryKeyValWith : List (List Char) → List Char → Option (List Char × Nat)
  | [], _ => none
  | kw :: kws, l =>
    match ciStrip kw l with
    | none => tryKeyValWith kws l
    | some (orig, r1) =>
      let ws1 := r1.takeWhile isJsWs
      match r1.drop ws1.length with
      | [] => tryKeyValWith kws l
      | sep :: r3 =>
        if sep == ':' || sep == '=' then
          let ws2 := r3.takeWhile isJsWs
          let r4 := r3.drop ws2.length
          let v := r4.takeWhile (fun c => !(isJsWs c) && c != '&' && c != '"' && c != '\'')
          if v.isEmpty then tryKeyValWith kws l
          else some (orig ++ "=***".data, orig.length + ws1.length + ws2.length + v.length)
        else tryKeyValWith kws l

def tryKeyVal : List Char → Option (List Char × Nat) := tryKeyValWith kvKeywords

/-- The optional-separator alternative `two[-\s]?factor` (greedy `?`).
`factor` cannot start with `-` or whitespace, so when the optional character
is present but `factor` does not follow it, the variant without the optional
character cannot match either. -/
def tryTwoFactor (l : List Char) : Option (List Char × List Char) :=
  match ciStrip "two".data l with
  | none => none
  | some (o1, r1) =>
    match r1 with
    | [] => none
    | c :: r2 =>
      if c == '-' || isJsWs c then
        match ciStrip "factor".data r2 with
        | some (o2, r3) => some (o1 ++ c :: o2, r3)
        | none => none
      else
        match ciStrip "factor".data r1 with
        | some (o2, r3) => some (o1 ++ o2, r3)
        | none => none

/-- The label alternation `(?:code|2fa|two[-\s]?factor|otp)` in JS order
(the alternatives start with pairwise distinct characters, so at most one
can match at a given position). -/
def tryCodeLabel (l : List Char) : Option (List Char × List Char) :=
  match ciStrip "code".data l with
  | some r => some r
  | none =>
    match ciStrip "2fa".data l with
    | some r => some r
    | none =>
      match tryTwoFactor l with
      | some r => some r
      | none => ciStrip "otp".data l

/-- Pass 3, `/((?:code|2fa|two[-\s]?factor|otp)\s*[:=\s]+)(\d{4,8})/gi`
→ `` `${p1}******` ``.  Because `\s ⊆ [:=\s]`, the sequence `\s*[:=\s]+`
matches exactly a nonempty maximal run over `[:=\s]` (backtracking cannot
turn a failure into a success: the run characters are not digits). -/
def tryCode (l : List Char) : Option (List Char × Nat) :=
  match tryCodeLabel l with
  | none => none
  | some (lab, r1) =>
    let run := r1.takeWhile (fun c => c == ':' || c == '=' || isJsWs c)
    if run.isEmpty then none
    else
      let ds := (r1.drop run.length).takeWhile isDigitC
      if ds.length < 4 then none
      else
        let k := min ds.length 8
        some (lab ++ run ++ "******".data, lab.length + run.length + k - 1)

/-- Pass 4, `/[a-f0-9]{32,}/gi` → `"***"` (greedy: the maximal hex run). -/
def tryHex (l : List Char) : Option (List Char × Nat) :=
  let run := l.takeWhile isHexC
  if 32 ≤ run.length then some ("***".data, run.length - 1) else none

/-- Pass 5, `/[A-Za-z0-9+/]{20,}={0,2}/g` → `"***"` (greedy: maximal base64
run, then up to two `=`). -/
def tryB64 (l : List Char) : Option (List Char × Nat) :=
  let run := l.takeWhile isB64C
  if 20 ≤ run.length then
    let eqs := (l.drop run.length).takeWhile (fun c => c == '=')
    some ("***".data, run.length + min eqs.length 2 - 1)
  else none

/-- Domain backtracking of the email pattern: the greedy `[A-Za-z0-9.-]+`
tries the longest prefix of the maximal domain-char run first, so the match
uses the largest `i ≥ 1` with `D[i] = '.'` followed by at least two ASCII
letters; `m` is the (greedy) length of that letter run. -/
def emailDomainSplit (D : List Char) : Option (Nat × Nat) :=
  (List.range D.length).reverse.findSome? fun i =>
    if 1 ≤ i && D.get? i == some '.' then
      let m := ((D.drop (i + 1)).takeWhile isAsciiLetter).length
      if 2 ≤ m then some (i, m) else none
    else none

/-- Pass 6 and `maskEmail`,
`/([A-Za-z0-9._%+-])[^@\s]*(@[A-Za-z0-9.-]+\.[A-Za-z]{2,})/g`
→ `` `${p1}***${p2}` ``.  The middle `[^@\s]*` cannot contain `@`, so it
extends exactly to the next `@` (backtracking cannot relocate the `@`). -/
def tryEmail (l : List Char) : Option (List Char × Nat) :=
  match l with
  | [] => none
  | c :: rest =>
    if isEmailStartC c then
      let mid := rest.takeWhile fun d => d != '@' && !(isJsWs d)
      match rest.drop mid.length with
      | '@' :: r2 =>
        let D := r2.takeWhile isDomainC
        match emailDomainSplit D with
        | some (i, m) =>
          some (c :: ("***".data ++ '@' :: D.take (i + 1 + m)),
                mid.length + i + m + 2)
        | none => none
      | _ => none
    else none

/-- `maskEmail` from `src/redaction.ts`. -/
def maskEmail (text : String) : String :=
  String.mk (globalReplace tryEmail text.data)

/-- `redactString` from `src/redaction.ts`: the six replace passes applied in
source order (bearer, key=value, labeled code, long hex, long base64, email). -/
def redactString (input : String) : String :=
  let s1 := globalReplace tryBearer input.data
  let s2 := globalReplace tryKeyVal s1
  let s3 := globalReplace tryCode s2
  let s4 := globalReplace tryHex s3
  let s5 := globalReplace tryB64 s4
  maskEmail (String.mk s5)

example : maskEmail "user@example.com" = "u***@example.com" := by decide
example : redactString "Bearer abc123def456" = "Bearer ***" := by decide
example : redactString "password: hunter2" = "password=***" := by decide
example : redactString "hello world" = "hello world" := by decide

/-! ### Character-run bookkeeping for the long-hex and long-base64 passes -/

/-- Length of the maximal `p`-run at the head of `l`. -/
def prefRun (p : Char → Bool) (l : List Char) : Nat := (l.takeWhile p).length

/-- Every suffix of `l` starts with a `p`-run shorter than `n` — equivalently,
`l` has no `n` consecutive characters satisfying `p`. -/
def RunLt (p : Char → Bool) (n : Nat) (l : List Char) : Prop :=
  ∀ t, t <:+ l → prefRun p t < n

theorem prefRun_cons (p : Char → Bool) (c : Char) (l : List Char) :
    prefRun p (c :: l) = if p c then prefRun p l + 1 else 0 := by
  simp only [prefRun, List.takeWhile_cons]
  split <;> simp

theorem prefRun_cons_le {p : Char → Bool} {l l' : List Char} (c : Char)
    (h : prefRun p l' ≤ prefRun p l) :
    prefRun p (c :: l') ≤ prefRun p (c :: l) := by
  rw [prefRun_cons, prefRun_cons]
  split <;> omega

theorem prefRun_append_le {p : Char → Bool} {z z' : List Char} (a : List Char)
    (h : prefRun p z' ≤ prefRun p z) :
    prefRun p (a ++ z') ≤ prefRun p (a ++ z) := by
  induction a with
  | nil => simpa using h
  | cons c a ih => simpa using prefRun_cons_le c ih

theorem prefRun_head_false {p : Char → Bool} {c : Char} (l : List Char)
    (h : p c = false) : prefRun p (c :: l) = 0 := by
  rw [prefRun_cons, h]; rfl

theorem RunLt.restrict {p : Char → Bool} {n : Nat} {l l' : List Char}
    (h : RunLt p n l) (hl : l' <:+ l) : RunLt p n l' :=
  fun t ht => h t (ht.trans hl)

/-- Decompose a suffix of an append. -/
theorem suffix_append_cases {t a z : List Char} (h : t <:+ a ++ z) :
    t <:+ z ∨ ∃ a', a' <:+ a ∧ t = a' ++ z := by
  induction a with
  | nil => exact Or.inl (by simpa using h)
  | cons c a ih =>
    rw [List.cons_append, List.suffix_cons_iff] at h
    cases h with
    | inl h => exact Or.inr ⟨c :: a, List.suffix_rfl, by simpa using h⟩
    | inr h =>
      cases ih h with
      | inl h' => exact Or.inl h'
      | inr h' =>
        obtain ⟨a', ha', ht⟩ := h'
        exact Or.inr ⟨a', ha'.trans (List.suffix_cons c a), ht⟩

/-- If the pattern fails at every suffix, the pass is the identity. -/
theorem globalReplace_id_of_noMatch (try1 : List Char → Option (List Char × Nat)) :
    ∀ l, (∀ t, t <:+ l → try1 t = none) → globalReplace try1 l = l := by
  intro l
  induction l using scan_induction (t := try1) with
  | h0 => intro _; rfl
  | hkeep c l ht ih =>
    intro h
    rw [globalReplace_keep ht,
      ih (fun t htl => h t (htl.trans (List.suffix_cons c l)))]
  | hrepl c l rep n ht ih =>
    intro h
    rw [h (c :: l) List.suffix_rfl] at ht
    cases ht

theorem tryHex_none_iff (l : List Char) :
    tryHex l = none ↔ prefRun isHexC l < 32 := by
  simp only [tryHex, prefRun]
  split <;> simp_all

theorem tryB64_none_iff (l : List Char) :
    tryB64 l = none ↔ prefRun isB64C l < 20 := by
  simp only [tryB64, prefRun]
  split <;> simp_all

theorem tryHex_rep {l rep : List Char} {n : Nat} (h : tryHex l = some (rep, n)) :
    rep = "***".data := by
  simp only [tryHex] at h
  split at h
  · exact (Prod.mk.injEq _ _ _ _ |>.mp (Option.some.inj h)).1.symm
  · cases h

theorem tryB64_rep {l rep : List Char} {n : Nat} (h : tryB64 l = some (rep, n)) :
    rep = "***".data := by
  simp only [tryB64] at h
  split at h
  · exact (Prod.mk.injEq _ _ _ _ |>.mp (Option.some.inj h)).1.symm
  · cases h

/-- The head-run of a scan output never exceeds the head-run of its input,
provided every replacement starts with a `p`-failing character. -/
theorem prefRun_scan_le (try1 : List Char → Option (List Char × Nat))
    (p : Char → Bool)
    (hstar : ∀ c l rep m, try1 (c :: l) = some (rep, m) →
      rep ≠ [] ∧ ∀ r ∈ rep, p r = false) :
    ∀ l, prefRun p (globalReplace try1 l) ≤ prefRun p l := by
  intro l
  induction l using scan_induction (t := try1) with
  | h0 => exact le_rfl
  | hkeep c l ht ih => rw [globalReplace_keep ht]; exact prefRun_cons_le c ih
  | hrepl c l rep n ht ih =>
    rw [globalReplace_match ht]
    obtain ⟨hne, hall⟩ := hstar c l rep n ht
    cases rep with
    | nil => exact absurd rfl hne
    | cons r d =>
      rw [List.cons_append, prefRun_head_false _ (hall r (by simp))]
      exact Nat.zero_le _

/-- Scan outputs have bounded runs when failing positions have bounded runs
and replacements consist of `p`-failing characters. -/
theorem runLt_scan (try1 : List Char → Option (List Char × Nat))
    (p : Char → Bool) (n : Nat) (hn : 0 < n)
    (hstar : ∀ c l rep m, try1 (c :: l) = some (rep, m) →
      rep ≠ [] ∧ ∀ r ∈ rep, p r = false)
    (hnone : ∀ t, try1 t = none → prefRun p t < n) :
    ∀ l, RunLt p n (globalReplace try1 l) := by
  intro l
  induction l using scan_induction (t := try1) with
  | h0 =>
    intro t ht
    rw [List.suffix_nil.mp ht]
    simpa [prefRun] using hn
  | hkeep c l ht ih =>
    rw [globalReplace_keep ht]
    intro t hsuf
    rcases List.suffix_cons_iff.mp hsuf with h | h
    · subst h
      calc prefRun p (c :: globalReplace try1 l)
          ≤ prefRun p (c :: l) := prefRun_cons_le c (prefRun_scan_le try1 p hstar l)
        _ < n := hnone _ ht
    · exact ih t h
  | hrepl c l rep n' ht ih =>
    rw [globalReplace_match ht]
    intro t hsuf
    rcases suffix_append_cases hsuf with h | h
    · exact ih t h
    · obtain ⟨a', ha', rfl⟩ := h
      obtain ⟨hne, hall⟩ := hstar c l rep n' ht
      cases a' with
      | nil => exact ih _ List.suffix_rfl
      | cons r d =>
        rw [List.cons_append,
          prefRun_head_false _ (hall r (ha'.subset (by simp)))]
        exact hn

/-- A pass whose replacements consist of `p`-failing characters preserves
bounded runs. -/
theorem runLt_scan_preserve (try1 : List Char → Option (List Char × Nat))
    (p : Char → Bool) (n : Nat) (hn : 0 < n)
    (hstar : ∀ c l rep m, try1 (c :: l) = some (rep, m) →
      rep ≠ [] ∧ ∀ r ∈ rep, p r = false) :
    ∀ l, RunLt p n l → RunLt p n (globalReplace try1 l) := by
  intro l
  induction l using scan_induction (t := try1) with
  | h0 =>
    intro _ t ht
    rw [List.suffix_nil.mp ht]
    simpa [prefRun] using hn
  | hkeep c l ht ih =>
    intro hrl
    rw [globalReplace_keep ht]
    intro t hsuf
    rcases List.suffix_cons_iff.mp hsuf with h | h
    · subst h
      calc prefRun p (c :: globalReplace try1 l)
          ≤ prefRun p (c :: l) := prefRun_cons_le c (prefRun_scan_le try1 p hstar l)
        _ < n := hrl _ List.suffix_rfl
    · exact ih (hrl.restrict (List.suffix_cons c l)) t h
  | hrepl c l rep n' ht ih =>
    intro hrl
    rw [globalReplace_match ht]
    have hdrop : RunLt p n (l.drop n') :=
      hrl.restrict ((List.drop_suffix n' l).trans (List.suffix_cons c l))
    intro t hsuf
    rcases suffix_append_cases hsuf with h | h
    · exact ih hdrop t h
    · obtain ⟨a', ha', rfl⟩ := h
      obtain ⟨hne, hall⟩ := hstar c l rep n' ht
      cases a' with
      | nil => exact ih hdrop _ List.suffix_rfl
      | cons r d =>
        rw [List.cons_append,
          prefRun_head_false _ (hall r (ha'.subset (by simp)))]
        exact hn

theorem hstar_hex : ∀ c l rep m, tryHex (c :: l) = some (rep, m) →
    rep ≠ [] ∧ ∀ r ∈ rep, isHexC r = false := by
  intro c l rep m h
  rw [tryHex_rep h]
  exact ⟨by simp, by decide⟩

theorem hstar_b64_hex : ∀ c l rep m, tryB64 (c :: l) = some (rep, m) →
    rep ≠ [] ∧ ∀ r ∈ rep, isHexC r = false := by
  intro c l rep m h
  rw [tryB64_rep h]
  exact ⟨by simp, by decide⟩

theorem hstar_b64 : ∀ c l rep m, tryB64 (c :: l) = some (rep, m) →
    rep ≠ [] ∧ ∀ r ∈ rep, isB64C r = false := by
  intro c l rep m h
  rw [tryB64_rep h]
  exact ⟨by simp, by decide⟩

/-- The hex pass leaves no run of 32 hex characters. -/
theorem runLt_hex_out (l : List Char) : RunLt isHexC 32 (globalReplace tryHex l) :=
  runLt_scan tryHex isHexC 32 (by omega) hstar_hex
    (fun t ht => (tryHex_none_iff t).mp ht) l

/-- The base64 pass leaves no run of 20 base64 characters. -/
theorem runLt_b64_out (l : List Char) : RunLt isB64C 20 (globalReplace tryB64 l) :=
  runLt_scan tryB64 isB64C 20 (by omega) hstar_b64
    (fun t ht => (tryB64_none_iff t).mp ht) l

/-- The base64 pass cannot create a 32-hex run. -/
theorem runLt_hex_preserved_b64 {l : List Char} (h : RunLt isHexC 32 l) :
    RunLt isHexC 32 (globalReplace tryB64 l) :=
  runLt_scan_preserve tryB64 isHexC 32 (by omega) hstar_b64_hex l h

/-- Without a 32-hex run the hex pass is the identity. -/
theorem hex_id_of_runLt {l : List Char} (h : RunLt isHexC 32 l) :
    globalReplace tryHex l = l :=
  globalReplace_id_of_noMatch tryHex l fun t ht => (tryHex_none_iff t).mpr (h t ht)

/-- Without a 20-base64 run the base64 pass is the identity. -/
theorem b64_id_of_runLt {l : List Char} (h : RunLt isB64C 20 l) :
    globalReplace tryB64 l = l :=
  globalReplace_id_of_noMatch tryB64 l fun t ht => (tryB64_none_iff t).mpr (h t ht)

/-! ### Structure of email-pass matches -/

/-- `findSome?` over a reversed range returns the largest index that
succeeds. -/
theorem findSome?_revRange_spec {β : Type} (f : Nat → Option β) :
    ∀ (k : Nat) (b : β), (List.range k).reverse.findSome? f = some b →
      ∃ i, i < k ∧ f i = some b ∧ ∀ j, i < j → j < k → f j = none := by
  intro k
  induction k with
  | zero => intro b h; simp [List.findSome?] at h
  | succ k ih =>
    intro b h
    rw [List.range_succ, List.reverse_append] at h
    simp only [List.reverse_singleton, List.singleton_append, List.findSome?] at h
    cases hf : f k with
    | some b' =>
      rw [hf] at h
      cases h
      exact ⟨k, Nat.lt_succ_self k, hf, fun j hj hj' => absurd hj (by omega)⟩
    | none =>
      rw [hf] at h
      obtain ⟨i, hik, hfi, hnone⟩ := ih b h
      exact ⟨i, by omega, hfi, fun j hj hj' => by
        rcases Nat.lt_succ_iff_lt_or_eq.mp hj' with h' | h'
        · exact hnone j hj h'
        · subst h'; exact hf⟩

theorem length_takeWhile_le' (p : Char → Bool) (l : List Char) :
    (l.takeWhile p).length ≤ l.length :=
  (List.takeWhile_prefix p).length_le

theorem emailDomainSplit_spec {D : List Char} {i m : Nat}
    (h : emailDomainSplit D = some (i, m)) :
    1 ≤ i ∧ i < D.length ∧ D.get? i = some '.' ∧
      m = ((D.drop (i + 1)).takeWhile isAsciiLetter).length ∧ 2 ≤ m ∧
      i + 1 + m ≤ D.length := by
  obtain ⟨j, hjk, hfj, -⟩ := findSome?_revRange_spec _ D.length (i, m) h
  by_cases hcond : (decide (1 ≤ j) && (D.get? j == some '.')) = true
  · rw [if_pos hcond] at hfj
    have hfj' : (if 2 ≤ ((D.drop (j + 1)).takeWhile isAsciiLetter).length then
        some (j, ((D.drop (j + 1)).takeWhile isAsciiLetter).length)
        else none) = some (i, m) := hfj
    by_cases hm2 : 2 ≤ ((D.drop (j + 1)).takeWhile isAsciiLetter).length
    · rw [if_pos hm2] at hfj'
      obtain ⟨rfl, rfl⟩ := Prod.mk.injEq .. |>.mp (Option.some.inj hfj')
      simp only [Bool.and_eq_true, decide_eq_true_eq, beq_iff_eq] at hcond
      refine ⟨hcond.1, hjk, hcond.2, rfl, hm2, ?_⟩
      have hlen : ((D.drop (j + 1)).takeWhile isAsciiLetter).length ≤ D.length - (j + 1) := by
        calc ((D.drop (j + 1)).takeWhile isAsciiLetter).length
            ≤ (D.drop (j + 1)).length := length_takeWhile_le' _ _
          _ = D.length - (j + 1) := List.length_drop _ _
      omega
    · rw [if_neg hm2] at hfj'; cases hfj'
  · rw [if_neg hcond] at hfj; cases hfj

/-- Full description of a successful email-pass match. -/
theorem tryEmail_spec {c : Char} {l rep : List Char} {m : Nat}
    (h : tryEmail (c :: l) = some (rep, m)) :
    ∃ (mid r2 dom : List Char) (i mm : Nat),
      mid = l.takeWhile (fun d => d != '@' && !(isJsWs d)) ∧
      l = mid ++ '@' :: r2 ∧
      emailDomainSplit (r2.takeWhile isDomainC) = some (i, mm) ∧
      i + 1 + mm ≤ (r2.takeWhile isDomainC).length ∧
      dom = r2.take (i + 1 + mm) ∧
      rep = c :: '*' :: '*' :: '*' :: '@' :: dom ∧
      m = mid.length + i + mm + 2 ∧
      l.drop m = r2.drop (i + 1 + mm) := by
  simp only [tryEmail] at h
  split at h
  · next hstart =>
    split at h
    · next r2 heq =>
      split at h
      · next i mm hsplit =>
        obtain ⟨hrep, hm⟩ := Prod.mk.injEq .. |>.mp (Option.some.inj h)
        obtain ⟨-, -, -, -, -, hle⟩ := emailDomainSplit_spec hsplit
        set mid := l.takeWhile (fun d => d != '@' && !(isJsWs d)) with hmid
        obtain ⟨z, hz⟩ := List.takeWhile_prefix (l := l) (p := fun d => d != '@' && !(isJsWs d))
        have hdropz : l.drop mid.length = z := by
          conv_lhs => rw [← hz]
          exact List.drop_left _ _
        have hzr2 : z = '@' :: r2 := by rw [← hdropz]; exact heq
        have hl : l = mid ++ '@' :: r2 := by rw [← hz, hzr2]
        have htake : (r2.takeWhile isDomainC).take (i + 1 + mm) = r2.take (i + 1 + mm) := by
          obtain ⟨w, hw⟩ := List.takeWhile_prefix (l := r2) (p := isDomainC)
          conv_rhs => rw [← hw]
          rw [List.take_append_of_le_length hle]
        refine ⟨mid, r2, r2.take (i + 1 + mm), i, mm, rfl, hl, hsplit, hle, rfl, ?_, ?_, ?_⟩
        · rw [← hrep, htake]; rfl
        · exact hm.symm
        · rw [hl, ← hm]
          have harith : mid.length + i + mm + 2 = mid.length + (i + mm + 2) := by omega
          rw [harith, List.drop_append, List.drop_succ_cons,
            show i + mm + 1 = i + 1 + mm by omega]
      · cases h
    · cases h
  · cases h

/-- The email pass cannot lengthen the head run of a `p`-class avoiding
`*`. -/
theorem prefRun_scan_le_email (p : Char → Bool) (hp : p '*' = false) :
    ∀ l, prefRun p (globalReplace tryEmail l) ≤ prefRun p l := by
  intro l
  induction l using scan_induction (t := tryEmail) with
  | h0 => exact le_rfl
  | hkeep c l ht ih => rw [globalReplace_keep ht]; exact prefRun_cons_le c ih
  | hrepl c l rep n ht ih =>
    rw [globalReplace_match ht]
    obtain ⟨mid, r2, dom, i, mm, hmid, hl, hsplit, hle, hdom, hrep, hn, hdropn⟩ :=
      tryEmail_spec ht
    subst hrep
    rw [List.cons_append, prefRun_cons, prefRun_cons]
    cases hpc : p c with
    | false => simp
    | true =>
      simp only [if_true]
      rw [List.cons_append, prefRun_head_false _ hp]
      omega

/-- The email pass preserves bounded `p`-runs for classes avoiding `*` and
`@` (the kept domain text together with the scanned continuation is a
contiguous piece of the input). -/
theorem runLt_email_preserve (p : Char → Bool) (n : Nat) (hn : 2 ≤ n)
    (hpstar : p '*' = false) (hpat : p '@' = false) :
    ∀ l, RunLt p n l → RunLt p n (globalReplace tryEmail l) := by
  intro l
  induction l using scan_induction (t := tryEmail) with
  | h0 =>
    intro _ t ht
    rw [List.suffix_nil.mp ht]
    simp only [prefRun, List.takeWhile_nil, List.length_nil]
    omega
  | hkeep c l ht ih =>
    intro hrl
    rw [globalReplace_keep ht]
    intro t hsuf
    rcases List.suffix_cons_iff.mp hsuf with h | h
    · subst h
      calc prefRun p (c :: globalReplace tryEmail l)
          ≤ prefRun p (c :: l) := prefRun_cons_le c (prefRun_scan_le_email p hpstar l)
        _ < n := hrl _ List.suffix_rfl
    · exact ih (hrl.restrict (List.suffix_cons c l)) t h
  | hrepl c l rep m ht ih =>
    intro hrl
    rw [globalReplace_match ht]
    obtain ⟨mid, r2, dom, i, mm, hmid, hl, hsplit, hle, hdom, hrep, hm, hdropm⟩ :=
      tryEmail_spec ht
    have hrlrest : RunLt p n (l.drop m) :=
      hrl.restrict ((List.drop_suffix m l).trans (List.suffix_cons c l))
    subst hrep
    intro t hsuf
    rw [show (c :: '*' :: '*' :: '*' :: '@' :: dom) ++ globalReplace tryEmail (l.drop m)
        = c :: '*' :: '*' :: '*' :: '@' :: (dom ++ globalReplace tryEmail (l.drop m)) by
      simp] at hsuf
    rcases List.suffix_cons_iff.mp hsuf with h | hsuf
    · subst h
      rw [prefRun_cons]
      cases hpc : p c with
      | false => simp; omega
      | true =>
        simp only [if_true]
        rw [prefRun_head_false _ hpstar]
        omega
    · rcases List.suffix_cons_iff.mp hsuf with h | hsuf
      · subst h; rw [prefRun_head_false _ hpstar]; omega
      rcases List.suffix_cons_iff.mp hsuf with h | hsuf
      · subst h; rw [prefRun_head_false _ hpstar]; omega
      rcases List.suffix_cons_iff.mp hsuf with h | hsuf
      · subst h; rw [prefRun_head_false _ hpstar]; omega
      rcases List.suffix_cons_iff.mp hsuf with h | hsuf
      · subst h; rw [prefRun_head_false _ hpat]; omega
      rcases suffix_append_cases hsuf with h | h
      · exact ih hrlrest t h
      · obtain ⟨ds, hds, rfl⟩ := h
        have hmono : prefRun p (ds ++ globalReplace tryEmail (l.drop m))
            ≤ prefRun p (ds ++ l.drop m) :=
          prefRun_append_le ds (prefRun_scan_le_email p hpstar (l.drop m))
        have hdomdrop : dom ++ l.drop m = r2 := by
          rw [hdom, hdropm, List.take_append_drop]
        obtain ⟨u, hu⟩ := hds
        have hr2 : ds ++ l.drop m <:+ r2 := by
          rw [← hdomdrop, ← hu, List.append_assoc]
          exact ⟨u, rfl⟩
        have hr2l : r2 <:+ l := by
          rw [hl]
          exact ⟨mid ++ ['@'], by simp⟩
        exact lt_of_le_of_lt hmono
          (hrl _ ((hr2.trans hr2l).trans (List.suffix_cons c l)))

/-- The email pass cannot create a 32-hex run. -/
theorem runLt_hex_preserved_email {l : List Char} (h : RunLt isHexC 32 l) :
    RunLt isHexC 32 (globalReplace tryEmail l) :=
  runLt_email_preserve isHexC 32 (by omega) (by decide) (by decide) l h

/-- The email pass cannot create a 20-base64 run. -/
theorem runLt_b64_preserved_email {l : List Char} (h : RunLt isB64C 20 l) :
    RunLt isB64C 20 (globalReplace tryEmail l) :=
  runLt_email_preserve isB64C 20 (by omega) (by decide) (by decide) l h

/-! ### Character-class facts and list helpers for email-pass stability -/

theorem emailStart_val_le {c : Char} (h : isEmailStartC c = true) : c.val ≤ 122 := by
  simp only [isEmailStartC, isAsciiLetter, isDigitC, Bool.or_eq_true, Bool.and_eq_true,
    decide_eq_true_eq, beq_iff_eq] at h
  rcases h with ((((((⟨h1, h2⟩ | ⟨h1, h2⟩) | ⟨h1, h2⟩) | h) | h) | h) | h) | h <;>
    first
      | exact UInt32.le_trans (Char.le_def.mp h2) (by decide)
      | (subst h; decide)

/-- JS whitespace is never an email-start character. -/
theorem ws_not_emailStart {c : Char} (h : isJsWs c = true) : isEmailStartC c = false := by
  cases he : isEmailStartC c
  · rfl
  · exfalso
    have hle := emailStart_val_le he
    simp only [isJsWs, Bool.or_eq_true, beq_iff_eq, Bool.and_eq_true,
      decide_eq_true_eq] at h
    rcases h with (((((((((((((h | h) | h) | h) | h) | h) | h) | h) | ⟨h1, h2⟩) | h) | h)
      | h) | h) | h) | h <;>
      first
        | (subst h; exact absurd he (by decide))
        | (rw [h] at hle; exact absurd hle (by decide))
        | (exact absurd (UInt32.le_trans h1 hle) (by decide))
        | (have hc : c = '\u000B' := Char.ext (by rw [h]; rfl)
           subst hc; exact absurd he (by decide))
        | (have hc : c = '\u000C' := Char.ext (by rw [h]; rfl)
           subst hc; exact absurd he (by decide))

theorem takeWhile_append_all {q : Char → Bool} {a : List Char} (z : List Char)
    (h : ∀ x ∈ a, q x = true) :
    (a ++ z).takeWhile q = a ++ z.takeWhile q := by
  induction a with
  | nil => rfl
  | cons c a ih =>
    have hqc : q c = true := h c (by simp)
    simp only [List.cons_append, List.takeWhile_cons, hqc, if_true, List.cons.injEq, true_and]
    exact ih fun x hx => h x (by simp [hx])

theorem takeWhile_maximal {q : Char → Bool} :
    ∀ {l : List Char} {x : Char}, l.get? (l.takeWhile q).length = some x → q x = false := by
  intro l
  induction l with
  | nil => intro x hx; cases hx
  | cons c l ih =>
    intro x hx
    cases hq : q c with
    | true =>
      simp only [List.takeWhile_cons, hq, if_true, List.length_cons,
        List.get?_cons_succ] at hx
      exact ih hx
    | false =>
      rw [List.takeWhile_cons, hq] at hx
      have hx' : some c = some x := hx
      exact (Option.some.inj hx') ▸ hq

theorem prefix_takeWhile {q : Char → Bool} :
    ∀ {A B : List Char}, A <+: B → A.takeWhile q <+: B.takeWhile q := by
  intro A
  induction A with
  | nil => intro B _; exact List.nil_prefix
  | cons a A ih =>
    intro B hAB
    cases B with
    | nil => exact absurd (List.prefix_nil.mp hAB) (by simp)
    | cons b B =>
      obtain ⟨rfl, hAB'⟩ := (List.cons_prefix_cons.mp hAB)
      simp only [List.takeWhile_cons]
      cases q a with
      | false => exact List.nil_prefix
      | true => exact (List.cons_prefix_cons).mpr ⟨rfl, ih hAB'⟩

theorem takeWhile_drop {q : Char → Bool} :
    ∀ (l : List Char) (k : Nat), k ≤ (l.takeWhile q).length →
      (l.drop k).takeWhile q = (l.takeWhile q).drop k := by
  intro l
  induction l with
  | nil => intro k _; simp
  | cons c l ih =>
    intro k hk
    cases k with
    | zero => simp
    | succ k' =>
      cases hq : q c with
      | false =>
        rw [List.takeWhile_cons, hq] at hk
        simp at hk
      | true =>
        simp only [List.takeWhile_cons, hq, if_true, List.length_cons,
          Nat.succ_le_succ_iff] at hk
        simp only [List.drop_succ_cons, List.takeWhile_cons, hq, if_true]
        exact ih k' hk

/-! ### Idempotence of the email pass -/

theorem take_prefix_eq {a l : List Char} (h : a <+: l) {n : Nat} (hn : n ≤ a.length) :
    l.take n = a.take n := by
  obtain ⟨s, rfl⟩ := h
  exact List.take_append_of_le_length hn

theorem drop_prefix_eq {a l : List Char} (h : a <+: l) {n : Nat} (hn : n ≤ a.length) :
    ∃ s, l.drop n = a.drop n ++ s ∧ l = a ++ s := by
  obtain ⟨s, rfl⟩ := h
  exact ⟨s, List.drop_append_of_le_length hn, rfl⟩

theorem takeWhile_prefix_stable {p : Char → Bool} :
    ∀ {a l : List Char}, a <+: l → (l.takeWhile p).length ≤ a.length →
      a.takeWhile p = l.takeWhile p := by
  intro a
  induction a with
  | nil =>
    intro l _ hlen
    have : l.takeWhile p = [] := List.eq_nil_of_length_eq_zero (Nat.le_zero.mp hlen)
    rw [this]; rfl
  | cons c a ih =>
    intro l hpre hlen
    cases l with
    | nil => exact absurd (List.prefix_nil.mp hpre) (by simp)
    | cons d l' =>
      obtain ⟨rfl, hpre'⟩ := List.cons_prefix_cons.mp hpre
      cases hq : p c with
      | false => simp [List.takeWhile_cons, hq]
      | true =>
        rw [List.takeWhile_cons, hq] at hlen
        simp only [if_true, List.length_cons, Nat.succ_le_succ_iff] at hlen
        simp only [List.takeWhile_cons, hq, if_true, List.cons.injEq, true_and]
        exact ih hpre' hlen

/-- A scan keeps an initial region at whose positions the pattern fails. -/
theorem scan_keep_prefix (try1 : List Char → Option (List Char × Nat)) :
    ∀ (a z : List Char), (∀ k, k < a.length → try1 (a.drop k ++ z) = none) →
      globalReplace try1 (a ++ z) = a ++ globalReplace try1 z := by
  intro a
  induction a with
  | nil => intro z _; rfl
  | cons c a ih =>
    intro z h
    have h0 : try1 (c :: (a ++ z)) = none := h 0 (by simp)
    rw [List.cons_append, globalReplace_keep h0,
      ih z fun k hk => h (k + 1) (by simpa using Nat.succ_lt_succ hk)]
    rfl

/-- The email pass can only shorten the maximal domain-character run at the
head of the string: replacements begin with the matched character followed by
`*`, which is not a domain character. -/
theorem tw_domain_scan_prefix :
    ∀ l, (globalReplace tryEmail l).takeWhile isDomainC <+: l.takeWhile isDomainC := by
  intro l
  induction l using scan_induction (t := tryEmail) with
  | h0 => exact List.nil_prefix
  | hkeep c l ht ih =>
    rw [globalReplace_keep ht]
    cases hq : isDomainC c with
    | false => simp only [List.takeWhile_cons, hq]; exact List.nil_prefix
    | true =>
      simp only [List.takeWhile_cons, hq, if_true]
      exact List.cons_prefix_cons.mpr ⟨rfl, ih⟩
  | hrepl c l rep n ht ih =>
    rw [globalReplace_match ht]
    obtain ⟨mid, r2, dom, i, mm, -, -, -, -, -, hrep, -, -⟩ := tryEmail_spec ht
    subst hrep
    cases hq : isDomainC c with
    | false => simp only [List.cons_append, List.takeWhile_cons, hq]; exact List.nil_prefix
    | true =>
      simp only [List.cons_append, List.takeWhile_cons, hq, if_true,
        show isDomainC '*' = false from by decide]
      exact List.cons_prefix_cons.mpr ⟨rfl, List.nil_prefix⟩

/-- Locating a hit of a reversed-range `findSome?` from its conditions. -/
theorem findSome?_revRange_eq {β : Type} (f : Nat → Option β) :
    ∀ (k i : Nat) (b : β), i < k → f i = some b →
      (∀ j, i < j → j < k → f j = none) →
      (List.range k).reverse.findSome? f = some b := by
  intro k
  induction k with
  | zero => intro i b h; omega
  | succ k ih =>
    intro i b hik hfi hnone
    rw [List.range_succ, List.reverse_append]
    simp only [List.reverse_singleton, List.singleton_append, List.findSome?]
    rcases Nat.lt_succ_iff_lt_or_eq.mp hik with h | rfl
    · rw [hnone k h (Nat.lt_succ_self k)]
      exact ih i b h hfi fun j hj hj' => hnone j hj (by omega)
    · rw [hfi]

/-- The dot index returned by `emailDomainSplit` is the largest valid one. -/
theorem emailDomainSplit_max {D : List Char} {i mm : Nat}
    (h : emailDomainSplit D = some (i, mm)) :
    ∀ j, i < j → j < D.length → (1 ≤ j ∧ D.get? j = some '.') →
      ((D.drop (j + 1)).takeWhile isAsciiLetter).length < 2 := by
  obtain ⟨i', hik, hfi, hmax⟩ := findSome?_revRange_spec _ D.length (i, mm) h
  have hii : i' = i := by
    by_cases hcond : (decide (1 ≤ i') && (D.get? i' == some '.')) = true
    · rw [if_pos hcond] at hfi
      have hfi' : (if 2 ≤ ((D.drop (i' + 1)).takeWhile isAsciiLetter).length then
          some (i', ((D.drop (i' + 1)).takeWhile isAsciiLetter).length)
          else none) = some (i, mm) := hfi
      by_cases hm2 : 2 ≤ ((D.drop (i' + 1)).takeWhile isAsciiLetter).length
      · rw [if_pos hm2] at hfi'
        exact (Prod.mk.injEq .. |>.mp (Option.some.inj hfi')).1
      · rw [if_neg hm2] at hfi'; cases hfi'
    · rw [if_neg hcond] at hfi; cases hfi
  subst hii
  intro j hij hjk hcond
  by_contra hrun
  have hcb : (decide (1 ≤ j) && (D.get? j == some '.')) = true := by
    have hg : D[j]? = some '.' := by rw [← List.get?_eq_getElem?]; exact hcond.2
    simp [hcond.1, hg]
  have := hmax j hij hjk
  rw [if_pos hcb] at this
  have h2 : 2 ≤ ((D.drop (j + 1)).takeWhile isAsciiLetter).length := by omega
  have this' : (if 2 ≤ ((D.drop (j + 1)).takeWhile isAsciiLetter).length then
      some (j, ((D.drop (j + 1)).takeWhile isAsciiLetter).length)
      else none) = none := this
  rw [if_pos h2] at this'
  cases this'

/-- If the full domain run splits nowhere, neither does any prefix of it. -/
theorem splitNone_prefix {D' D : List Char} (hpre : D' <+: D)
    (h : emailDomainSplit D = none) : emailDomainSplit D' = none := by
  rw [emailDomainSplit, List.findSome?_eq_none_iff] at h ⊢
  intro j hj
  rw [List.mem_reverse, List.mem_range] at hj
  by_cases hcond : (decide (1 ≤ j) && (D'.get? j == some '.')) = true
  · rw [if_pos hcond]
    obtain ⟨s, rfl⟩ := hpre
    have hget : (D' ++ s).get? j = D'.get? j := List.get?_append hj
    have hcondD : (decide (1 ≤ j) && ((D' ++ s).get? j == some '.')) = true := by
      rw [hget]; exact hcond
    have hD := h j (by rw [List.mem_reverse, List.mem_range]; simp; omega)
    rw [if_pos hcondD] at hD
    have hrunD : (((D' ++ s).drop (j + 1)).takeWhile isAsciiLetter).length < 2 := by
      by_contra hge
      rw [if_pos (by omega)] at hD
      cases hD
    have hdropeq : (D' ++ s).drop (j + 1) = D'.drop (j + 1) ++ s :=
      List.drop_append_of_le_length hj
    have hle : ((D'.drop (j + 1)).takeWhile isAsciiLetter).length ≤
        (((D' ++ s).drop (j + 1)).takeWhile isAsciiLetter).length := by
      rw [hdropeq]
      exact (prefix_takeWhile (List.prefix_append _ _)).length_le
    rw [if_neg (by omega)]
  · rw [if_neg hcond]

/-- A split of the full domain run transfers to any prefix long enough to
contain the matched dot and letter block. -/
theorem splitSome_prefix {D' D : List Char} {i mm : Nat} (hpre : D' <+: D)
    (h : emailDomainSplit D = some (i, mm)) (hlen : i + 1 + mm ≤ D'.length) :
    emailDomainSplit D' = some (i, mm) := by
  obtain ⟨h1, hiD, hdot, hrun, hm2, hbound⟩ := emailDomainSplit_spec h
  obtain ⟨s, rfl⟩ := hpre
  have hiD' : i < D'.length := by omega
  -- the letter run after the dot is the same in `D'` as in `D`
  have hdropeq : (D' ++ s).drop (i + 1) = D'.drop (i + 1) ++ s :=
    List.drop_append_of_le_length (by omega)
  have hrun' : (D'.drop (i + 1)).takeWhile isAsciiLetter =
      ((D' ++ s).drop (i + 1)).takeWhile isAsciiLetter := by
    rw [hdropeq]
    refine takeWhile_prefix_stable (List.prefix_append _ _) ?_
    rw [← hdropeq, ← hrun]
    have : D'.length - (i + 1) ≤ (D'.drop (i + 1)).length := by
      rw [List.length_drop]
    omega
  rw [emailDomainSplit]
  refine findSome?_revRange_eq _ D'.length i (i, mm) hiD' ?_ ?_
  · have hget : D'.get? i = some '.' := by
      rw [← List.get?_append hiD']; exact hdot
    have hg : D'[i]? = some '.' := by rw [← List.get?_eq_getElem?]; exact hget
    rw [if_pos (by simp [h1, hg]), hrun', ← hrun, if_pos hm2]
  · intro j hij hjD'
    by_cases hcond : (decide (1 ≤ j) && (D'.get? j == some '.')) = true
    · rw [if_pos hcond]
      simp only [Bool.and_eq_true, decide_eq_true_eq, beq_iff_eq] at hcond
      have hgetD : (D' ++ s).get? j = some '.' := by
        rw [List.get?_append hjD']; exact hcond.2
      have hmax := emailDomainSplit_max h j hij (by simp; omega) ⟨hcond.1, hgetD⟩
      have hdropj : (D' ++ s).drop (j + 1) = D'.drop (j + 1) ++ s :=
        List.drop_append_of_le_length hjD'
      have hle : ((D'.drop (j + 1)).takeWhile isAsciiLetter).length ≤
          (((D' ++ s).drop (j + 1)).takeWhile isAsciiLetter).length := by
        rw [hdropj]
        exact (prefix_takeWhile (List.prefix_append _ _)).length_le
      rw [if_neg (by omega)]
    · rw [if_neg hcond]

theorem tryEmail_not_start {c : Char} (rest : List Char) (h : isEmailStartC c = false) :
    tryEmail (c :: rest) = none := by
  simp [tryEmail, h]

/-- An email-start character is a legal local-part middle character. -/
theorem emailStart_q {c : Char} (h : isEmailStartC c = true) :
    (c != '@' && !(isJsWs c)) = true := by
  have h1 : c ≠ '@' := fun he => by rw [he] at h; exact absurd h (by decide)
  have h2 : isJsWs c = false := by
    cases hw : isJsWs c
    · rfl
    · rw [ws_not_emailStart hw] at h; cases h
  simp [h1, h2]

/-- No email match on a string of local-part middle characters (no `@`). -/
theorem tryEmail_none_of_all_mid {t : List Char}
    (hall : ∀ x ∈ t, (x != '@' && !(isJsWs x)) = true) :
    tryEmail t = none := by
  cases t with
  | nil => rfl
  | cons d t' =>
    cases hs : isEmailStartC d with
    | false => exact tryEmail_not_start _ hs
    | true =>
      have htw : t'.takeWhile (fun x => x != '@' && !(isJsWs x)) = t' := by
        have := takeWhile_append_all (q := fun x => x != '@' && !(isJsWs x)) (a := t') []
          (fun x hx => hall x (by simp [hx]))
        simpa using this
      simp [tryEmail, hs, htw, List.drop_length]

/-- No email match when the local-part run ends at whitespace. -/
theorem tryEmail_none_mid_ws :
    ∀ (a : List Char), (∀ x ∈ a, (x != '@' && !(isJsWs x)) = true) →
    ∀ (w : Char) (z : List Char), isJsWs w = true → tryEmail (a ++ w :: z) = none := by
  intro a hall w z hw
  cases a with
  | nil =>
    exact tryEmail_not_start _ (ws_not_emailStart hw)
  | cons d a' =>
    cases hs : isEmailStartC d with
    | false => exact tryEmail_not_start _ hs
    | true =>
      have hqw : (w != '@' && !(isJsWs w)) = false := by rw [hw]; simp
      have htw : (a' ++ w :: z).takeWhile (fun x => x != '@' && !(isJsWs x)) = a' := by
        rw [takeWhile_append_all _ (fun x hx => hall x (by simp [hx])),
          List.takeWhile_cons, hqw]
        simp
      have hwa : w ≠ '@' := by
        intro he; rw [he] at hw; exact absurd hw (by decide)
      rw [List.cons_append]
      simp only [tryEmail, hs, if_true, htw, List.drop_left]
      split
      · next r2 heq =>
        exact absurd (List.cons.injEq .. |>.mp heq).1 hwa
      · rfl

/-- No email match when the domain run after the `@` has no valid dot. -/
theorem tryEmail_none_at_split :
    ∀ (a : List Char), (∀ x ∈ a, (x != '@' && !(isJsWs x)) = true) →
    ∀ (z : List Char), emailDomainSplit (z.takeWhile isDomainC) = none →
    tryEmail (a ++ '@' :: z) = none := by
  intro a hall z hsplit
  cases a with
  | nil => exact tryEmail_not_start _ (by decide)
  | cons d a' =>
    cases hs : isEmailStartC d with
    | false => exact tryEmail_not_start _ hs
    | true =>
      have htw : (a' ++ '@' :: z).takeWhile (fun x => x != '@' && !(isJsWs x)) = a' := by
        rw [takeWhile_append_all _ (fun x hx => hall x (by simp [hx])),
          List.takeWhile_cons]
        simp
      rw [List.cons_append]
      simp only [tryEmail, hs, if_true, htw, List.drop_left]
      split
      · rename_i heq
        rw [hsplit] at heq
        cases heq
      · rfl

/-- A failing email-match position still fails after the tail of the string is
rewritten by the email pass itself. -/
theorem try6_none_persist {c : Char} {rest : List Char}
    (h : tryEmail (c :: rest) = none) :
    tryEmail (c :: globalReplace tryEmail rest) = none := by
  cases hs : isEmailStartC c with
  | false => exact tryEmail_not_start _ hs
  | true =>
    have hmidall : ∀ x ∈ rest.takeWhile (fun d => d != '@' && !(isJsWs d)),
        (x != '@' && !(isJsWs x)) = true := by
      intro x hx
      have hx' := List.mem_takeWhile_imp hx
      exact hx'
    obtain ⟨s, hrs⟩ := List.takeWhile_prefix
      (l := rest) (p := fun d => d != '@' && !(isJsWs d))
    have hdrop : rest.drop
        (rest.takeWhile (fun d => d != '@' && !(isJsWs d))).length = s := by
      have h1 : rest.drop (rest.takeWhile (fun d => d != '@' && !(isJsWs d))).length
          = (rest.takeWhile (fun d => d != '@' && !(isJsWs d)) ++ s).drop
            (rest.takeWhile (fun d => d != '@' && !(isJsWs d))).length := by rw [hrs]
      rw [h1, List.drop_left]
    cases hcs : s with
    | nil =>
      have hall : ∀ x ∈ rest, (x != '@' && !(isJsWs x)) = true := by
        intro x hx
        rw [← hrs, hcs, List.append_nil] at hx
        exact hmidall x hx
      have hid : globalReplace tryEmail rest = rest :=
        globalReplace_id_of_noMatch tryEmail rest fun t ht =>
          tryEmail_none_of_all_mid fun x hx => hall x (ht.subset hx)
      rw [hid]; exact h
    | cons w z =>
      have hgw : rest.get?
          (rest.takeWhile (fun d => d != '@' && !(isJsWs d))).length = some w := by
        have hg := List.get?_drop rest
          (rest.takeWhile (fun d => d != '@' && !(isJsWs d))).length 0
        rw [hdrop, hcs] at hg
        simpa using hg.symm
      have hqw : (w != '@' && !(isJsWs w)) = false := takeWhile_maximal hgw
      have hrest : rest =
          (rest.takeWhile (fun d => d != '@' && !(isJsWs d)) ++ [w]) ++ z := by
        conv_lhs => rw [← hrs, hcs]
        simp
      by_cases hw : w = '@'
      · subst hw
        have hsplit : emailDomainSplit (z.takeWhile isDomainC) = none := by
          cases hsp : emailDomainSplit (z.takeWhile isDomainC) with
          | none => rfl
          | some p =>
            obtain ⟨i, mm⟩ := p
            have hsome : tryEmail (c :: rest) ≠ none := by
              simp only [tryEmail, hs, if_true, hdrop, hcs]
              split
              · simp
              · rename_i heq
                rw [hsp] at heq
                cases heq
            exact absurd h hsome
        have hkeep : globalReplace tryEmail rest =
            (rest.takeWhile (fun d => d != '@' && !(isJsWs d)) ++ ['@']) ++
              globalReplace tryEmail z := by
          conv_lhs => rw [hrest]
          refine scan_keep_prefix tryEmail _ z ?_
          intro k hk
          rw [List.length_append] at hk
          simp only [List.length_cons, List.length_nil] at hk
          by_cases hkm :
              k < (rest.takeWhile (fun d => d != '@' && !(isJsWs d))).length
          · rw [List.drop_append_of_le_length (le_of_lt hkm), List.append_assoc,
              List.singleton_append]
            exact tryEmail_none_at_split _
              (fun x hx => hmidall x (List.drop_subset _ _ hx)) z hsplit
          · have hke : k = (rest.takeWhile (fun d => d != '@' && !(isJsWs d))).length := by
              omega
            subst hke
            rw [List.drop_left, List.singleton_append]
            exact tryEmail_none_at_split [] (by simp) z hsplit
        rw [hkeep]
        have hsh : c :: ((rest.takeWhile (fun d => d != '@' && !(isJsWs d)) ++ ['@']) ++
              globalReplace tryEmail z)
            = (c :: rest.takeWhile (fun d => d != '@' && !(isJsWs d))) ++
              '@' :: globalReplace tryEmail z := by
          simp
        rw [hsh]
        exact tryEmail_none_at_split
          (c :: rest.takeWhile (fun d => d != '@' && !(isJsWs d)))
          (fun x hx => by
            rcases List.mem_cons.mp hx with rfl | hx'
            · exact emailStart_q hs
            · exact hmidall x hx')
          _ ( splitNone_prefix ( tw_domain_scan_prefix z) hsplit)
      · have hwws : isJsWs w = true := by
          cases hww : isJsWs w
          · exfalso
            have : (w != '@' && !(isJsWs w)) = true := by
              rw [hww]; simp [hw]
            rw [this] at hqw; cases hqw
          · rfl
        have hkeep : globalReplace tryEmail rest =
            (rest.takeWhile (fun d => d != '@' && !(isJsWs d)) ++ [w]) ++
              globalReplace tryEmail z := by
          conv_lhs => rw [hrest]
          refine scan_keep_prefix tryEmail _ z ?_
          intro k hk
          rw [List.length_append] at hk
          simp only [List.length_cons, List.length_nil] at hk
          by_cases hkm :
              k < (rest.takeWhile (fun d => d != '@' && !(isJsWs d))).length
          · rw [List.drop_append_of_le_length (le_of_lt hkm), List.append_assoc,
              List.singleton_append]
            exact tryEmail_none_mid_ws _
              (fun x hx => hmidall x (List.drop_subset _ _ hx)) w z hwws
          · have hke : k = (rest.takeWhile (fun d => d != '@' && !(isJsWs d))).length := by
              omega
            subst hke
            rw [List.drop_left, List.singleton_append]
            exact tryEmail_none_mid_ws [] (by simp) w z hwws
        rw [hkeep]
        have hsh : c :: ((rest.takeWhile (fun d => d != '@' && !(isJsWs d)) ++ [w]) ++
              globalReplace tryEmail z)
            = (c :: rest.takeWhile (fun d => d != '@' && !(isJsWs d))) ++
              w :: globalReplace tryEmail z := by
          simp
        rw [hsh]
        exact tryEmail_none_mid_ws
          (c :: rest.takeWhile (fun d => d != '@' && !(isJsWs d)))
          (fun x hx => by
            rcases List.mem_cons.mp hx with rfl | hx'
            · exact emailStart_q hs
            · exact hmidall x hx')
          w _ hwws

/-- An email replacement block, followed by the email-pass output of the
remainder, matches the email pattern again — producing the very same block
and consuming exactly the block. -/
theorem try6_rematch {c : Char} {rest rep : List Char} {n : Nat}
    (h : tryEmail (c :: rest) = some (rep, n)) :
    ∃ repTail, rep = c :: repTail ∧
      tryEmail (c :: (repTail ++ globalReplace tryEmail (rest.drop n))) =
        some (rep, repTail.length) := by
  obtain ⟨mid, r2, dom, i, mm, hmid, hl, hsplit, hbound, hdom, hrep, hm, hdropm⟩ :=
    tryEmail_spec h
  have hs : isEmailStartC c = true := by
    cases hs' : isEmailStartC c
    · rw [tryEmail_not_start _ hs'] at h; cases h
    · rfl
  refine ⟨'*' :: '*' :: '*' :: '@' :: dom, hrep, ?_⟩
  have hdomlen : dom.length = i + 1 + mm := by
    rw [hdom, List.length_take]
    have h2 : i + 1 + mm ≤ r2.length :=
      le_trans hbound (length_takeWhile_le' _ _)
    omega
  have hdomtake : dom = (r2.takeWhile isDomainC).take (i + 1 + mm) := by
    rw [hdom]
    exact (take_prefix_eq (List.takeWhile_prefix _) hbound).symm ▸ rfl
  have hdomall : ∀ x ∈ dom, isDomainC x = true := by
    intro x hx
    rw [hdomtake] at hx
    have hx' := List.mem_takeWhile_imp (List.take_subset _ _ hx)
    exact hx'
  have htw3 : ('*' :: '*' :: '*' :: '@' ::
        (dom ++ globalReplace tryEmail (rest.drop n))).takeWhile
      (fun d => d != '@' && !(isJsWs d)) = ['*', '*', '*'] := by
    simp [List.takeWhile_cons]
    decide
  have hF : (globalReplace tryEmail (rest.drop n)).takeWhile isDomainC <+:
      (r2.takeWhile isDomainC).drop (i + 1 + mm) := by
    have h1 := tw_domain_scan_prefix (rest.drop n)
    have h2 : (rest.drop n).takeWhile isDomainC =
        (r2.takeWhile isDomainC).drop (i + 1 + mm) := by
      rw [hdropm]
      exact takeWhile_drop r2 (i + 1 + mm) hbound
    rw [h2] at h1
    exact h1
  have hDfull : dom ++ (r2.takeWhile isDomainC).drop (i + 1 + mm) =
      r2.takeWhile isDomainC := by
    rw [hdomtake, List.take_append_drop]
  have htwD : (dom ++ globalReplace tryEmail (rest.drop n)).takeWhile isDomainC =
      dom ++ (globalReplace tryEmail (rest.drop n)).takeWhile isDomainC :=
    takeWhile_append_all _ hdomall
  have hDpre : (dom ++ globalReplace tryEmail (rest.drop n)).takeWhile isDomainC <+:
      r2.takeWhile isDomainC := by
    rw [htwD, ← hDfull]
    obtain ⟨u, hu⟩ := hF
    exact ⟨u, by rw [List.append_assoc, hu]⟩
  have hlen' : i + 1 + mm ≤
      ((dom ++ globalReplace tryEmail (rest.drop n)).takeWhile isDomainC).length := by
    rw [htwD, List.length_append, hdomlen]
    omega
  have hsplit' : emailDomainSplit
      ((dom ++ globalReplace tryEmail (rest.drop n)).takeWhile isDomainC) =
      some (i, mm) := splitSome_prefix hDpre hsplit hlen'
  have htake' : ((dom ++ globalReplace tryEmail (rest.drop n)).takeWhile
      isDomainC).take (i + 1 + mm) = dom := by
    rw [htwD, ← hdomlen, List.take_left]
  simp only [List.cons_append]
  simp only [tryEmail, hs, if_true, htw3]
  show (match emailDomainSplit ((dom ++ globalReplace tryEmail
      (rest.drop n)).takeWhile isDomainC) with
    | some (i, m) => some (c :: ("***".data ++ '@' ::
        ((dom ++ globalReplace tryEmail (rest.drop n)).takeWhile
          isDomainC).take (i + 1 + m)),
        (List.length ['*', '*', '*'] : Nat) + i + m + 2)
    | none => none) = some (rep, ('*' :: '*' :: '*' :: '@' :: dom).length)
  rw [hsplit']
  show some (c :: ("***".data ++ '@' ::
      ((dom ++ globalReplace tryEmail (rest.drop n)).takeWhile
        isDomainC).take (i + 1 + mm)),
      (List.length ['*', '*', '*'] : Nat) + i + mm + 2) =
    some (rep, ('*' :: '*' :: '*' :: '@' :: dom).length)
  rw [htake', hrep]
  have hlenrep : ('*' :: '*' :: '*' :: '@' :: dom).length = 3 + i + mm + 2 := by
    simp only [List.length_cons, hdomlen]
    omega
  rw [hlenrep]
  rfl

/-- The email pass is idempotent. -/
theorem email_idem :
    ∀ l, globalReplace tryEmail (globalReplace tryEmail l) = globalReplace tryEmail l := by
  intro l
  induction l using scan_induction (t := tryEmail) with
  | h0 => rfl
  | hkeep c rest ht ih =>
    rw [globalReplace_keep ht, globalReplace_keep (try6_none_persist ht), ih]
  | hrepl c rest rep n ht ih =>
    obtain ⟨repTail, hrep, hmatch⟩ := try6_rematch ht
    rw [globalReplace_match ht, hrep, List.cons_append, globalReplace_match hmatch,
      List.drop_left, ih, ← List.cons_append, ← hrep]

/-! ### Self-stable scans

A scan position is *ok* when the pattern either fails there or rewrites the
matched text to itself.  A pass is the identity on a string all of whose
suffixes are ok. -/

def tryOk (try1 : List Char → Option (List Char × Nat)) (t : List Char) : Prop :=
  match try1 t with
  | none => True
  | some (rep, n) => rep = t.take (n + 1)

def SelfStable (try1 : List Char → Option (List Char × Nat)) (l : List Char) : Prop :=
  ∀ t, t <:+ l → tryOk try1 t

theorem selfStable_suffix {try1 : List Char → Option (List Char × Nat)}
    {l l' : List Char} (h : SelfStable try1 l) (hl : l' <:+ l) :
    SelfStable try1 l' :=
  fun t ht => h t (ht.trans hl)

theorem scan_id_of_selfStable (try1 : List Char → Option (List Char × Nat)) :
    ∀ l, SelfStable try1 l → globalReplace try1 l = l := by
  intro l
  induction l using scan_induction (t := try1) with
  | h0 => intro _; rfl
  | hkeep c l ht ih =>
    intro h
    rw [globalReplace_keep ht, ih (selfStable_suffix h (List.suffix_cons c l))]
  | hrepl c l rep n ht ih =>
    intro h
    have hok := h (c :: l) List.suffix_rfl
    rw [tryOk, ht] at hok
    rw [globalReplace_match ht,
      ih (selfStable_suffix h ((List.drop_suffix n l).trans (List.suffix_cons c l))),
      hok]
    show c :: (l.take n ++ l.drop n) = c :: l
    rw [List.take_append_drop]

/-- `ciStrip` consumes exactly the case-folded pattern. -/
theorem ciStrip_spec : ∀ (p l : List Char) {o r : List Char},
    ciStrip p l = some (o, r) → l = o ++ r ∧ o.map Char.toLower = p := by
  intro p
  induction p with
  | nil =>
    intro l o r h
    cases l <;> · cases h; exact ⟨rfl, rfl⟩
  | cons pc ps ih =>
    intro l o r h
    cases l with
    | nil => cases h
    | cons c cs =>
      simp only [ciStrip] at h
      by_cases hc : (c.toLower == pc) = true
      · rw [if_pos hc] at h
        cases hm : ciStrip ps cs with
        | none => rw [hm] at h; cases h
        | some pr =>
          obtain ⟨m, r'⟩ := pr
          rw [hm] at h
          obtain ⟨ho, hr⟩ := Prod.mk.injEq .. |>.mp (Option.some.inj h)
          obtain ⟨hcs, hmap⟩ := ih cs hm
          subst hr
          rw [← ho]
          exact ⟨by rw [hcs]; rfl, by simp [hmap, beq_iff_eq.mp hc]⟩
      · rw [if_neg hc] at h; cases h

/-- Reconstruction: a text whose case-folding is the pattern is consumed. -/
theorem ciStrip_of_map : ∀ {o : List Char} {p : List Char},
    o.map Char.toLower = p → ∀ z, ciStrip p (o ++ z) = some (o, z) := by
  intro o
  induction o with
  | nil => intro p h z; rw [← h]; rfl
  | cons c cs ih =>
    intro p h z
    rw [← h, List.map_cons, List.cons_append]
    simp only [ciStrip, beq_self_eq_true, if_true]
    show (match ciStrip (List.map Char.toLower cs) (cs ++ z) with
      | some (m, r) => some (c :: m, r) | none => none) = some (c :: cs, z)
    rw [ih rfl z]

theorem ciStrip_none_head {pc : Char} (ps : List Char) {c : Char} (cs : List Char)
    (h : (c.toLower == pc) = false) : ciStrip (pc :: ps) (c :: cs) = none := by
  simp only [ciStrip, h]
  rfl

/-- First-match decomposition of a scan. -/
theorem scan_decomp (try1 : List Char → Option (List Char × Nat))
    (hnil : try1 [] = none) :
    ∀ l, (∀ t, t <:+ l → try1 t = none) ∨
      ∃ P c rest rep n, l = P ++ c :: rest ∧
        (∀ k, k < P.length → try1 (l.drop k) = none) ∧
        try1 (c :: rest) = some (rep, n) ∧
        globalReplace try1 l = P ++ (rep ++ globalReplace try1 (rest.drop n)) := by
  intro l
  induction l using scan_induction (t := try1) with
  | h0 =>
    left
    intro t ht
    rw [List.suffix_nil.mp ht]
    exact hnil
  | hkeep c l ht ih =>
    cases ih with
    | inl hnone =>
      left
      intro t hsuf
      rcases List.suffix_cons_iff.mp hsuf with rfl | h
      · exact ht
      · exact hnone t h
    | inr hdec =>
      obtain ⟨P, c', rest, rep, n, hl, hpre, hsome, heq⟩ := hdec
      right
      refine ⟨c :: P, c', rest, rep, n, by rw [hl]; rfl, ?_, hsome, ?_⟩
      · intro k hk
        cases k with
        | zero => exact ht
        | succ k' =>
          rw [List.length_cons, Nat.succ_lt_succ_iff] at hk
          rw [List.drop_succ_cons, hl]
          have := hpre k' hk
          rw [hl] at this
          exact this
      · rw [globalReplace_keep ht, heq]
        rfl
  | hrepl c l rep n ht ih =>
    right
    refine ⟨[], c, l, rep, n, rfl, ?_, ht, globalReplace_match ht⟩
    intro k hk
    simp at hk

/-! ### Case-folding arithmetic -/

theorem char_ofNat_toNat {n : Nat} (h : n < 55296) : (Char.ofNat n).toNat = n := by
  unfold Char.ofNat
  split
  · rfl
  · rename_i hh
    exact absurd (Or.inl h) hh

theorem toLower_cases (c : Char) :
    c.toLower = c ∨ (65 ≤ c.toNat ∧ c.toNat ≤ 90 ∧ (c.toLower).toNat = c.toNat + 32) := by
  by_cases h : 65 ≤ c.toNat ∧ c.toNat ≤ 90
  · right
    have he : c.toLower = Char.ofNat (c.toNat + 32) := by
      show (if c.toNat ≥ 65 ∧ c.toNat ≤ 90 then Char.ofNat (c.toNat + 32) else c) = _
      rw [if_pos ⟨h.1, h.2⟩]
    refine ⟨h.1, h.2, ?_⟩
    rw [he]
    exact char_ofNat_toNat (by omega)
  · left
    show (if c.toNat ≥ 65 ∧ c.toNat ≤ 90 then Char.ofNat (c.toNat + 32) else c) = c
    exact if_neg fun hc => h ⟨hc.1, hc.2⟩

theorem toLower_eq_inv {c d : Char} (h : c.toLower = d) :
    c = d ∨ (65 ≤ c.toNat ∧ c.toNat ≤ 90 ∧ d.toNat = c.toNat + 32) := by
  rcases toLower_cases c with h1 | ⟨h1, h2, h3⟩
  · left; rw [← h, h1]
  · right; exact ⟨h1, h2, by rw [← h]; exact h3⟩

/-- Case-folding to a character below `'a'` is the identity. -/
theorem toLower_eq_low {c d : Char} (h : c.toLower = d) (hd : d.toNat < 97) : c = d := by
  rcases toLower_eq_inv h with rfl | ⟨h1, h2, h3⟩
  · rfl
  · omega

/-- Case-folding to a lower-case letter comes from it or its upper case. -/
theorem toLower_eq_letter {c d : Char} (D : Char) (h : c.toLower = d)
    (hD : D.toNat + 32 = d.toNat ∧ 65 ≤ D.toNat ∧ D.toNat ≤ 90) : c = d ∨ c = D := by
  rcases toLower_eq_inv h with rfl | ⟨h1, h2, h3⟩
  · left; rfl
  · right
    refine Char.ext (UInt32.toNat.inj ?_)
    show c.toNat = D.toNat
    omega

/-! ### The code-label alternation: head characters and shapes -/

theorem tryTwoFactor_none_head {c : Char} (t : List Char)
    (h : (c.toLower == 't') = false) : tryTwoFactor (c :: t) = none := by
  simp only [tryTwoFactor, ciStrip_none_head _ t h]

theorem tryCodeLabel_none_head {c : Char} (t : List Char)
    (hc : (c.toLower == 'c') = false) (h2 : (c.toLower == '2') = false)
    (ht : (c.toLower == 't') = false) (ho : (c.toLower == 'o') = false) :
    tryCodeLabel (c :: t) = none := by
  simp only [tryCodeLabel, ciStrip_none_head _ t hc, ciStrip_none_head _ t h2,
    ciStrip_none_head _ t ho, tryTwoFactor_none_head t ht]

/-- The four label first characters, as a reusable eliminator: a character
whose lower case is one of `c`, `2`, `t`, `o` is that character or its upper
case. -/
theorem labelHead_cases {c : Char} :
    ((c.toLower == 'c') = false ∧ (c.toLower == '2') = false ∧
     (c.toLower == 't') = false ∧ (c.toLower == 'o') = false) ∨
    c = 'c' ∨ c = 'C' ∨ c = '2' ∨ c = 't' ∨ c = 'T' ∨ c = 'o' ∨ c = 'O' := by
  by_cases hc : (c.toLower == 'c') = true
  · rcases toLower_eq_letter 'C' (beq_iff_eq.mp hc) (by decide) with rfl | rfl
    · right; left; rfl
    · right; right; left; rfl
  · by_cases h2 : (c.toLower == '2') = true
    · right; right; right; left
      exact toLower_eq_low (beq_iff_eq.mp h2) (by decide)
    · by_cases ht : (c.toLower == 't') = true
      · rcases toLower_eq_letter 'T' (beq_iff_eq.mp ht) (by decide) with rfl | rfl
        · right; right; right; right; left; rfl
        · right; right; right; right; right; left; rfl
      · by_cases ho : (c.toLower == 'o') = true
        · rcases toLower_eq_letter 'O' (beq_iff_eq.mp ho) (by decide) with rfl | rfl
          · right; right; right; right; right; right; left; rfl
          · right; right; right; right; right; right; right; rfl
        · left
          exact ⟨Bool.eq_false_iff.mpr fun hh => hc hh,
            Bool.eq_false_iff.mpr fun hh => h2 hh,
            Bool.eq_false_iff.mpr fun hh => ht hh,
            Bool.eq_false_iff.mpr fun hh => ho hh⟩

/-- Shape of a matched code label. -/
def LabShape (lab : List Char) : Prop :=
  lab.map Char.toLower = "code".data ∨ lab.map Char.toLower = "2fa".data ∨
  lab.map Char.toLower = "otp".data ∨
  (∃ o1 f o2, lab = o1 ++ f :: o2 ∧ o1.map Char.toLower = "two".data ∧
    (f :: o2).map Char.toLower = "factor".data ∧ (f == '-' || isJsWs f) = false) ∨
  (∃ o1 c f o2, lab = o1 ++ c :: f :: o2 ∧ o1.map Char.toLower = "two".data ∧
    (f :: o2).map Char.toLower = "factor".data ∧ (c == '-' || isJsWs c) = true)

theorem map_toLower_cons {xs : List Char} {a : Char} {rest : List Char}
    (h : xs.map Char.toLower = a :: rest) :
    ∃ x xt, xs = x :: xt ∧ x.toLower = a ∧ xt.map Char.toLower = rest := by
  cases xs with
  | nil => cases h
  | cons x xt =>
    rw [List.map_cons] at h
    obtain ⟨h1, h2⟩ := List.cons.injEq .. |>.mp h
    exact ⟨x, xt, rfl, h1, h2⟩

theorem tryTwoFactor_spec {l lab r : List Char} (h : tryTwoFactor l = some (lab, r)) :
    l = lab ++ r ∧
    ((∃ o1 f o2, lab = o1 ++ f :: o2 ∧ o1.map Char.toLower = "two".data ∧
        (f :: o2).map Char.toLower = "factor".data ∧ (f == '-' || isJsWs f) = false) ∨
     (∃ o1 c f o2, lab = o1 ++ c :: f :: o2 ∧ o1.map Char.toLower = "two".data ∧
        (f :: o2).map Char.toLower = "factor".data ∧ (c == '-' || isJsWs c) = true)) := by
  simp only [tryTwoFactor] at h
  cases h1 : ciStrip "two".data l with
  | none => rw [h1] at h; cases h
  | some p1 =>
    obtain ⟨o1, r1⟩ := p1
    rw [h1] at h
    obtain ⟨hl1, hm1⟩ := ciStrip_spec _ _ h1
    cases r1 with
    | nil => cases h
    | cons c r2 =>
      have h' : (if (c == '-' || isJsWs c) = true then
          (match ciStrip "factor".data r2 with
            | some (o2, r3) => some (o1 ++ c :: o2, r3)
            | none => none)
          else
          (match ciStrip "factor".data (c :: r2) with
            | some (o2, r3) => some (o1 ++ o2, r3)
            | none => none)) = some (lab, r) := h
      by_cases hsep : (c == '-' || isJsWs c) = true
      · rw [if_pos hsep] at h'
        cases h2 : ciStrip "factor".data r2 with
        | none => rw [h2] at h'; cases h'
        | some p2 =>
          obtain ⟨o2, r3⟩ := p2
          rw [h2] at h'
          obtain ⟨hlab, hr⟩ := Prod.mk.injEq .. |>.mp (Option.some.inj h')
          obtain ⟨hl2, hm2⟩ := ciStrip_spec _ _ h2
          obtain ⟨f, o2t, rfl, hf, hrest⟩ := map_toLower_cons hm2
          subst hr
          refine ⟨?_, Or.inr ⟨o1, c, f, o2t, hlab.symm, hm1, by simp [hf, hrest], hsep⟩⟩
          rw [hl1, hl2, ← hlab]
          simp
      · rw [if_neg hsep] at h'
        cases h2 : ciStrip "factor".data (c :: r2) with
        | none => rw [h2] at h'; cases h'
        | some p2 =>
          obtain ⟨o2, r3⟩ := p2
          rw [h2] at h'
          obtain ⟨hlab, hr⟩ := Prod.mk.injEq .. |>.mp (Option.some.inj h')
          obtain ⟨hl2, hm2⟩ := ciStrip_spec _ _ h2
          obtain ⟨f, o2t, ho2, hf, hrest⟩ := map_toLower_cons hm2
          subst hr
          have hfc : f = c := by
            have := congrArg List.head? hl2
            rw [ho2] at this
            simpa using this.symm
          subst hfc
          refine ⟨?_, Or.inl ⟨o1, f, o2t, by rw [hlab.symm, ho2], hm1,
            by simp [hf, hrest], Bool.eq_false_iff.mpr fun hh => hsep hh⟩⟩
          rw [hl1, hl2, ← hlab]
          simp

theorem tryTwoFactor_of_shape {lab : List Char}
    (h : (∃ o1 f o2, lab = o1 ++ f :: o2 ∧ o1.map Char.toLower = "two".data ∧
        (f :: o2).map Char.toLower = "factor".data ∧ (f == '-' || isJsWs f) = false) ∨
      (∃ o1 c f o2, lab = o1 ++ c :: f :: o2 ∧ o1.map Char.toLower = "two".data ∧
        (f :: o2).map Char.toLower = "factor".data ∧ (c == '-' || isJsWs c) = true)) :
    ∀ z, tryTwoFactor (lab ++ z) = some (lab, z) := by
  intro z
  rcases h with ⟨o1, f, o2, rfl, hm1, hm2, hsep⟩ | ⟨o1, c, f, o2, rfl, hm1, hm2, hsep⟩
  · have hstep : (o1 ++ f :: o2) ++ z = o1 ++ (f :: (o2 ++ z)) := by simp
    rw [hstep]
    simp only [tryTwoFactor, ciStrip_of_map hm1, hsep, if_false]
    have hfz : ciStrip "factor".data (f :: (o2 ++ z)) = some (f :: o2, z) := by
      have := ciStrip_of_map hm2 z
      simpa using this
    rw [hfz]
    rfl
  · have hstep : (o1 ++ c :: f :: o2) ++ z = o1 ++ (c :: (f :: o2 ++ z)) := by simp
    rw [hstep]
    simp only [tryTwoFactor, ciStrip_of_map hm1, hsep, if_true]
    have hfz : ciStrip "factor".data (f :: o2 ++ z) = some (f :: o2, z) :=
      ciStrip_of_map hm2 z
    rw [hfz]

theorem tryCodeLabel_spec {l lab r : List Char} (h : tryCodeLabel l = some (lab, r)) :
    l = lab ++ r ∧ LabShape lab := by
  simp only [tryCodeLabel] at h
  cases h1 : ciStrip "code".data l with
  | some p =>
    obtain ⟨o, r'⟩ := p
    rw [h1] at h
    obtain ⟨rfl, rfl⟩ := Prod.mk.injEq .. |>.mp (Option.some.inj h)
    obtain ⟨hl, hm⟩ := ciStrip_spec _ _ h1
    exact ⟨hl, Or.inl hm⟩
  | none =>
    rw [h1] at h
    cases h2 : ciStrip "2fa".data l with
    | some p =>
      obtain ⟨o, r'⟩ := p
      rw [h2] at h
      obtain ⟨rfl, rfl⟩ := Prod.mk.injEq .. |>.mp (Option.some.inj h)
      obtain ⟨hl, hm⟩ := ciStrip_spec _ _ h2
      exact ⟨hl, Or.inr (Or.inl hm)⟩
    | none =>
      rw [h2] at h
      cases h3 : tryTwoFactor l with
      | some p =>
        obtain ⟨o, r'⟩ := p
        rw [h3] at h
        obtain ⟨rfl, rfl⟩ := Prod.mk.injEq .. |>.mp (Option.some.inj h)
        obtain ⟨hl, hsh⟩ := tryTwoFactor_spec h3
        exact ⟨hl, Or.inr (Or.inr (Or.inr hsh))⟩
      | none =>
        rw [h3] at h
        obtain ⟨hl, hm⟩ := ciStrip_spec _ _ h
        exact ⟨hl, Or.inr (Or.inr (Or.inl hm))⟩

theorem labShape_head {lab : List Char} (h : LabShape lab) :
    ∃ c t, lab = c :: t ∧
      (c.toLower = 'c' ∨ c.toLower = '2' ∨ c.toLower = 't' ∨ c.toLower = 'o') := by
  rcases h with hm | hm | hm | ⟨o1, f, o2, rfl, hm, -, -⟩ | ⟨o1, c, f, o2, rfl, hm, -, -⟩
  · obtain ⟨x, xt, rfl, hx, -⟩ := map_toLower_cons hm
    exact ⟨x, xt, rfl, Or.inl hx⟩
  · obtain ⟨x, xt, rfl, hx, -⟩ := map_toLower_cons hm
    exact ⟨x, xt, rfl, Or.inr (Or.inl hx)⟩
  · obtain ⟨x, xt, rfl, hx, -⟩ := map_toLower_cons hm
    exact ⟨x, xt, rfl, Or.inr (Or.inr (Or.inr hx))⟩
  · obtain ⟨x, xt, rfl, hx, -⟩ := map_toLower_cons hm
    exact ⟨x, xt ++ f :: o2, rfl, Or.inr (Or.inr (Or.inl hx))⟩
  · obtain ⟨x, xt, rfl, hx, -⟩ := map_toLower_cons hm
    exact ⟨x, xt ++ c :: f :: o2, rfl, Or.inr (Or.inr (Or.inl hx))⟩

theorem tryCodeLabel_of_shape {lab : List Char} (h : LabShape lab) :
    ∀ z, tryCodeLabel (lab ++ z) = some (lab, z) := by
  intro z
  rcases h with hm | hm | hm | hsh | hsh
  · simp only [tryCodeLabel, ciStrip_of_map hm z]
  · obtain ⟨c, t, hct, hx, -⟩ := map_toLower_cons hm
    subst hct
    have hnc : (c.toLower == 'c') = false := by rw [hx]; decide
    rw [List.cons_append]
    simp only [tryCodeLabel, ciStrip_none_head _ _ hnc]
    have h2 := ciStrip_of_map hm z
    rw [List.cons_append] at h2
    rw [h2]
  · obtain ⟨c, t, hct, hx, -⟩ := map_toLower_cons hm
    subst hct
    have hnc : (c.toLower == 'c') = false := by rw [hx]; decide
    have hn2 : (c.toLower == '2') = false := by rw [hx]; decide
    have hnt : (c.toLower == 't') = false := by rw [hx]; decide
    rw [List.cons_append]
    simp only [tryCodeLabel, ciStrip_none_head _ _ hnc, ciStrip_none_head _ _ hn2,
      tryTwoFactor_none_head _ hnt]
    have h2 := ciStrip_of_map hm z
    rw [List.cons_append] at h2
    rw [h2]
  · obtain ⟨o1, f, o2, hlab, hm1, hm2, hsepf⟩ := hsh
    obtain ⟨x, xt, hx1, hx2, -⟩ := map_toLower_cons hm1
    subst hlab
    subst hx1
    have hnc : (x.toLower == 'c') = false := by rw [hx2]; decide
    have hn2 : (x.toLower == '2') = false := by rw [hx2]; decide
    have hstep : ((x :: xt) ++ f :: o2) ++ z = x :: ((xt ++ f :: o2) ++ z) := by simp
    rw [hstep]
    simp only [tryCodeLabel, ciStrip_none_head _ _ hnc, ciStrip_none_head _ _ hn2]
    have htf := tryTwoFactor_of_shape (Or.inl ⟨x :: xt, f, o2, rfl, hm1, hm2, hsepf⟩) z
    rw [hstep] at htf
    rw [htf]
  · obtain ⟨o1, c, f, o2, hlab, hm1, hm2, hsepc⟩ := hsh
    obtain ⟨x, xt, hx1, hx2, -⟩ := map_toLower_cons hm1
    subst hlab
    subst hx1
    have hnc : (x.toLower == 'c') = false := by rw [hx2]; decide
    have hn2 : (x.toLower == '2') = false := by rw [hx2]; decide
    have hstep : ((x :: xt) ++ c :: f :: o2) ++ z = x :: ((xt ++ c :: f :: o2) ++ z) := by
      simp
    rw [hstep]
    simp only [tryCodeLabel, ciStrip_none_head _ _ hnc, ciStrip_none_head _ _ hn2]
    have htf := tryTwoFactor_of_shape (Or.inr ⟨x :: xt, c, f, o2, rfl, hm1, hm2, hsepc⟩) z
    rw [hstep] at htf
    rw [htf]

/-! ### The code pass never matches in its own output -/

theorem ciStrip_none_tail {pc : Char} {ps : List Char} {c : Char} {cs : List Char}
    (h : ciStrip ps cs = none) : ciStrip (pc :: ps) (c :: cs) = none := by
  simp only [ciStrip]
  split
  · rw [h]
  · rfl

theorem get?_mem' {l : List Char} {n : Nat} {a : Char} (h : l.get? n = some a) : a ∈ l :=
  List.get?_mem h

/-- Splitting a list at the first `'*'` of an appended tail, when the head
part cannot contain `'*'`. -/
theorem append_cut {lab r A v : List Char} (heq : A ++ '*' :: v = lab ++ r)
    (hstar : '*' ∉ lab) : ∃ B, A = lab ++ B ∧ r = B ++ '*' :: v := by
  by_cases hle : lab.length ≤ A.length
  · refine ⟨A.drop lab.length, ?_, ?_⟩
    · have h1 := congrArg (List.take lab.length) heq
      rw [List.take_append_of_le_length hle, List.take_left] at h1
      conv_lhs => rw [← List.take_append_drop lab.length A, h1]
    · have h2 := congrArg (List.drop lab.length) heq
      rw [List.drop_append_of_le_length hle, List.drop_left] at h2
      exact h2.symm
  · exfalso
    have h1 : (lab ++ r).get? A.length = some '*' := by
      rw [← heq, List.get?_append_right le_rfl]
      simp
    rw [List.get?_append (by omega)] at h1
    exact hstar (get?_mem' h1)

theorem labShape_no_star {lab : List Char} (h : LabShape lab) : '*' ∉ lab := by
  intro hmem
  rcases h with hm | hm | hm | ⟨o1, f, o2, rfl, hm1, hm2, hsep⟩ |
    ⟨o1, c, f, o2, rfl, hm1, hm2, hsep⟩
  · have hlow := List.mem_map_of_mem Char.toLower hmem
    rw [hm] at hlow
    exact absurd hlow (by decide)
  · have hlow := List.mem_map_of_mem Char.toLower hmem
    rw [hm] at hlow
    exact absurd hlow (by decide)
  · have hlow := List.mem_map_of_mem Char.toLower hmem
    rw [hm] at hlow
    exact absurd hlow (by decide)
  · rcases List.mem_append.mp hmem with h1 | h2
    · have hlow := List.mem_map_of_mem Char.toLower h1
      rw [hm1] at hlow
      exact absurd hlow (by decide)
    · have hlow := List.mem_map_of_mem Char.toLower h2
      rw [hm2] at hlow
      exact absurd hlow (by decide)
  · rcases List.mem_append.mp hmem with h1 | h2
    · have hlow := List.mem_map_of_mem Char.toLower h1
      rw [hm1] at hlow
      exact absurd hlow (by decide)
    · rcases List.mem_cons.mp h2 with rfl | h3
      · exact absurd hsep (by decide)
      · have hlow := List.mem_map_of_mem Char.toLower h3
        rw [hm2] at hlow
        exact absurd hlow (by decide)

/-- A code-label match that runs into a `'*'` cut is confined to the part
before the cut, and is insensitive to everything at and after the cut. -/
theorem tryCodeLabel_cut {A v lab r : List Char}
    (h : tryCodeLabel (A ++ '*' :: v) = some (lab, r)) :
    ∃ B, A = lab ++ B ∧ r = B ++ '*' :: v ∧ LabShape lab ∧
      ∀ w, tryCodeLabel (A ++ w) = some (lab, B ++ w) := by
  obtain ⟨hl, hsh⟩ := tryCodeLabel_spec h
  obtain ⟨B, hA, hr⟩ := append_cut hl (labShape_no_star hsh)
  refine ⟨B, hA, hr, hsh, ?_⟩
  intro w
  rw [hA, List.append_assoc]
  exact tryCodeLabel_of_shape hsh (B ++ w)

/-- A `takeWhile` over an append either stops at a failing element of the
first part, or the first part holds entirely. -/
theorem takeWhile_append_split (p : Char → Bool) :
    ∀ (s z : List Char),
      ((s ++ z).takeWhile p = s.takeWhile p ∧
        ∃ a, s.get? (s.takeWhile p).length = some a ∧ p a = false) ∨
      ((∀ a ∈ s, p a = true) ∧ (s ++ z).takeWhile p = s ++ z.takeWhile p) := by
  intro s
  induction s with
  | nil =>
    intro z
    right
    exact ⟨fun a ha => absurd ha (List.not_mem_nil a), rfl⟩
  | cons c s ih =>
    intro z
    cases hc : p c with
    | false =>
      left
      have hcn : ¬(p c = true) := by simp [hc]
      constructor
      · rw [List.cons_append, List.takeWhile_cons, List.takeWhile_cons, if_neg hcn,
          if_neg hcn]
      · refine ⟨c, ?_, hc⟩
        rw [List.takeWhile_cons, if_neg hcn]
        rfl
    | true =>
      rcases ih z with ⟨h1, a, ha, hpa⟩ | ⟨h1, h2⟩
      · left
        constructor
        · rw [List.cons_append, List.takeWhile_cons, List.takeWhile_cons, if_pos hc,
            if_pos hc, h1]
        · refine ⟨a, ?_, hpa⟩
          rw [List.takeWhile_cons, if_pos hc]
          simpa using ha
      · right
        constructor
        · intro b hb
          rcases List.mem_cons.mp hb with rfl | hmm
          · exact hc
          · exact h1 b hmm
        · rw [List.cons_append, List.takeWhile_cons, if_pos hc, h2, List.cons_append]

/-- Structure of a code-pass match. -/
theorem tryCode_spec {l rep : List Char} {n : Nat} (h : tryCode l = some (rep, n)) :
    ∃ lab r1, tryCodeLabel l = some (lab, r1) ∧ l = lab ++ r1 ∧ LabShape lab ∧
      (r1.takeWhile (fun c => c == ':' || c == '=' || isJsWs c)) ≠ [] ∧
      4 ≤ ((r1.drop (r1.takeWhile (fun c => c == ':' || c == '=' ||
        isJsWs c)).length).takeWhile isDigitC).length ∧
      rep = lab ++ (r1.takeWhile (fun c => c == ':' || c == '=' || isJsWs c)) ++
        "******".data ∧
      n + 1 = lab.length +
        (r1.takeWhile (fun c => c == ':' || c == '=' || isJsWs c)).length +
        min ((r1.drop (r1.takeWhile (fun c => c == ':' || c == '=' ||
          isJsWs c)).length).takeWhile isDigitC).length 8 := by
  simp only [tryCode] at h
  cases h1 : tryCodeLabel l with
  | none => rw [h1] at h; cases h
  | some p =>
    obtain ⟨lab, r1⟩ := p
    rw [h1] at h
    obtain ⟨hl, hsh⟩ := tryCodeLabel_spec h1
    have h' : (if (r1.takeWhile (fun c => c == ':' || c == '=' ||
        isJsWs c)).isEmpty = true then none
      else if ((r1.drop (r1.takeWhile (fun c => c == ':' || c == '=' ||
          isJsWs c)).length).takeWhile isDigitC).length < 4 then none
      else some (lab ++ (r1.takeWhile (fun c => c == ':' || c == '=' ||
          isJsWs c)) ++ "******".data,
        lab.length + (r1.takeWhile (fun c => c == ':' || c == '=' ||
          isJsWs c)).length +
        min ((r1.drop (r1.takeWhile (fun c => c == ':' || c == '=' ||
          isJsWs c)).length).takeWhile isDigitC).length 8 - 1)) = some (rep, n) := h
    by_cases he : (r1.takeWhile (fun c => c == ':' || c == '=' || isJsWs c)).isEmpty = true
    · rw [if_pos he] at h'
      exact Option.noConfusion h'
    · rw [if_neg he] at h'
      by_cases hd : ((r1.drop (r1.takeWhile (fun c => c == ':' || c == '=' ||
          isJsWs c)).length).takeWhile isDigitC).length < 4
      · rw [if_pos hd] at h'
        exact Option.noConfusion h'
      · rw [if_neg hd] at h'
        injection h' with hpair
        injection hpair with hrep hn
        refine ⟨lab, r1, rfl, hl, hsh, ?_, by omega, hrep.symm, by omega⟩
        intro hnil
        rw [hnil] at he
        exact he rfl

/-- Matching parts suffice for a code-pass match. -/
theorem tryCode_ne_none_of_parts {l lab r1 : List Char}
    (hl : tryCodeLabel l = some (lab, r1))
    (hrun : r1.takeWhile (fun c => c == ':' || c == '=' || isJsWs c) ≠ [])
    (hds : 4 ≤ ((r1.drop (r1.takeWhile (fun c => c == ':' || c == '=' ||
      isJsWs c)).length).takeWhile isDigitC).length) :
    tryCode l ≠ none := by
  intro h
  simp only [tryCode, hl] at h
  have h' : (if (r1.takeWhile (fun c => c == ':' || c == '=' ||
      isJsWs c)).isEmpty = true then none
    else if ((r1.drop (r1.takeWhile (fun c => c == ':' || c == '=' ||
        isJsWs c)).length).takeWhile isDigitC).length < 4 then none
    else some (lab ++ (r1.takeWhile (fun c => c == ':' || c == '=' ||
        isJsWs c)) ++ "******".data,
      lab.length + (r1.takeWhile (fun c => c == ':' || c == '=' ||
        isJsWs c)).length +
      min ((r1.drop (r1.takeWhile (fun c => c == ':' || c == '=' ||
        isJsWs c)).length).takeWhile isDigitC).length 8 - 1)) = none := h
  by_cases he : (r1.takeWhile (fun c => c == ':' || c == '=' || isJsWs c)).isEmpty = true
  · apply hrun
    cases hB : r1.takeWhile (fun c => c == ':' || c == '=' || isJsWs c) with
    | nil => rfl
    | cons a t =>
      rw [hB] at he
      exact absurd he (by simp)
  · rw [if_neg he, if_neg (by omega)] at h'
    exact Option.noConfusion h'

/-- No code match starts at a star. -/
theorem tryCode_star (t : List Char) : tryCode ('*' :: t) = none := by
  have hl : tryCodeLabel ('*' :: t) = none :=
    tryCodeLabel_none_head t (by decide) (by decide) (by decide) (by decide)
  simp only [tryCode, hl]

theorem tryCode_none_of_label {t : List Char} (h : tryCodeLabel t = none) :
    tryCode t = none := by
  simp only [tryCode, h]

/-- The cut lemma for the code pattern: if it fails at a position, it also
fails there after the text from some point on is replaced by a star and
arbitrary material. -/
theorem cut3 (A u v : List Char) (hx : tryCode (A ++ u) = none) :
    tryCode (A ++ '*' :: v) = none := by
  cases hy : tryCode (A ++ '*' :: v) with
  | none => rfl
  | some p =>
    exfalso
    obtain ⟨rep, n⟩ := p
    obtain ⟨lab, r1, hlabel, -, -, hrun, hds, -, -⟩ := tryCode_spec hy
    obtain ⟨B, hA, hr1, -, hrecon⟩ := tryCodeLabel_cut hlabel
    subst hr1
    have hlx := hrecon u
    rcases takeWhile_append_split (fun c => c == ':' || c == '=' || isJsWs c)
        B ('*' :: v) with ⟨hty, a, ha, hpa⟩ | ⟨hall, hty⟩
    · -- the separator run stops inside `B`; it is the same on both sides
      have htx : (B ++ u).takeWhile (fun c => c == ':' || c == '=' || isJsWs c) =
          B.takeWhile (fun c => c == ':' || c == '=' || isJsWs c) := by
        rcases takeWhile_append_split (fun c => c == ':' || c == '=' || isJsWs c)
            B u with ⟨h1, -⟩ | ⟨hall2, -⟩
        · exact h1
        · exact absurd (hall2 a (get?_mem' ha)) (by simp [hpa])
      have hklen : (B.takeWhile (fun c => c == ':' || c == '=' ||
          isJsWs c)).length ≤ B.length := (List.takeWhile_prefix _).length_le
      rw [hty] at hrun hds
      rw [List.drop_append_of_le_length hklen] at hds
      have hds' : 4 ≤ (((B ++ u).drop ((B ++ u).takeWhile (fun c => c == ':' ||
          c == '=' || isJsWs c)).length).takeWhile isDigitC).length := by
        rw [htx, List.drop_append_of_le_length hklen]
        rcases takeWhile_append_split isDigitC
            (B.drop (B.takeWhile (fun c => c == ':' || c == '=' ||
              isJsWs c)).length) ('*' :: v) with ⟨h1, b, hb, hpb⟩ | ⟨hall2, h2⟩
        · rw [h1] at hds
          rcases takeWhile_append_split isDigitC
              (B.drop (B.takeWhile (fun c => c == ':' || c == '=' ||
                isJsWs c)).length) u with ⟨h3, -⟩ | ⟨hall3, -⟩
          · rw [h3]
            exact hds
          · exact absurd (hall3 b (get?_mem' hb)) (by simp [hpb])
        · rw [h2] at hds
          rw [show ('*' :: v).takeWhile isDigitC = [] from by
            rw [List.takeWhile_cons, if_neg (by decide)]] at hds
          rw [List.append_nil] at hds
          rcases takeWhile_append_split isDigitC
              (B.drop (B.takeWhile (fun c => c == ':' || c == '=' ||
                isJsWs c)).length) u with ⟨-, b, hb, hpb⟩ | ⟨-, h4⟩
          · exact absurd (hall2 b (get?_mem' hb)) (by simp [hpb])
          · rw [h4, List.length_append]
            omega
      have hrun' : (B ++ u).takeWhile (fun c => c == ':' || c == '=' ||
          isJsWs c) ≠ [] := by
        rw [htx]
        exact hrun
      exact tryCode_ne_none_of_parts hlx hrun' hds' hx
    · -- the whole of `B` is separator material: the digit run is then empty
      have hstar : ('*' :: v).takeWhile (fun c => c == ':' || c == '=' ||
          isJsWs c) = [] := by
        rw [List.takeWhile_cons, if_neg (by decide)]
      rw [hstar, List.append_nil] at hty
      rw [hty, List.drop_left] at hds
      rw [show ('*' :: v).takeWhile isDigitC = [] from by
        rw [List.takeWhile_cons, if_neg (by decide)]] at hds
      exact absurd hds (by decide)

/-! ### Positions inside a code replacement block never match -/

theorem tryTwoFactor_none_strip {l : List Char} (h : ciStrip "two".data l = none) :
    tryTwoFactor l = none := by
  simp only [tryTwoFactor, h]

/-- A separator-class character (`:`, `=`, whitespace) starts no code label. -/
theorem sep_not_labelhead {c : Char} (h : (c == ':' || c == '=' || isJsWs c) = true)
    (t : List Char) : tryCodeLabel (c :: t) = none := by
  rcases @labelHead_cases c with ⟨hc, h2, ht, ho⟩ | rfl | rfl | rfl | rfl | rfl | rfl | rfl
  · exact tryCodeLabel_none_head t hc h2 ht ho
  all_goals exact absurd h (by decide)

/-- A dash-or-whitespace character starts no code label. -/
theorem dashws_not_labelhead {c : Char} (h : (c == '-' || isJsWs c) = true)
    (t : List Char) : tryCodeLabel (c :: t) = none := by
  rcases @labelHead_cases c with ⟨hc, h2, ht, ho⟩ | rfl | rfl | rfl | rfl | rfl | rfl | rfl
  · exact tryCodeLabel_none_head t hc h2 ht ho
  all_goals exact absurd h (by decide)

theorem dashws_not_t {c : Char} (h : (c == '-' || isJsWs c) = true) :
    (c.toLower == 't') = false := by
  by_cases hh : (c.toLower == 't') = true
  · rcases toLower_eq_letter 'T' (beq_iff_eq.mp hh) (by decide) with rfl | rfl
    · exact absurd h (by decide)
    · exact absurd h (by decide)
  · exact Bool.eq_false_iff.mpr fun hx => hh hx

/-- No code label survives a star in second position. -/
theorem tryCodeLabel_star2 (d : Char) (w : List Char) :
    tryCodeLabel (d :: '*' :: w) = none := by
  rcases @labelHead_cases d with ⟨hc, h2, ht, ho⟩ | rfl | rfl | rfl | rfl | rfl | rfl | rfl
  · exact tryCodeLabel_none_head _ hc h2 ht ho
  all_goals rfl

/-- Every nonempty suffix of a case-insensitive `factor` is a dead end for the
label alternation. -/
theorem factor_suffix_none {f : Char} {o2 : List Char}
    (hm2 : (f :: o2).map Char.toLower = "factor".data) :
    ∀ s, s <:+ f :: o2 → s ≠ [] → ∀ z, tryCodeLabel (s ++ z) = none := by
  obtain ⟨f', t1, heq, hf, hm⟩ := map_toLower_cons hm2
  obtain ⟨rfl, rfl⟩ := List.cons.injEq .. |>.mp heq
  obtain ⟨g2, t2, rfl, hg2, hm⟩ := map_toLower_cons hm
  obtain ⟨g3, t3, rfl, hg3, hm⟩ := map_toLower_cons hm
  obtain ⟨g4, t4, rfl, hg4, hm⟩ := map_toLower_cons hm
  obtain ⟨g5, t5, rfl, hg5, hm⟩ := map_toLower_cons hm
  obtain ⟨g6, t6, rfl, hg6, hm⟩ := map_toLower_cons hm
  have ht6 : t6 = [] := List.map_eq_nil.mp hm
  subst ht6
  intro s hs hnil z
  rcases List.suffix_cons_iff.mp hs with rfl | hs
  · exact tryCodeLabel_none_head _ (by rw [hf]; decide) (by rw [hf]; decide)
      (by rw [hf]; decide) (by rw [hf]; decide)
  rcases List.suffix_cons_iff.mp hs with rfl | hs
  · exact tryCodeLabel_none_head _ (by rw [hg2]; decide) (by rw [hg2]; decide)
      (by rw [hg2]; decide) (by rw [hg2]; decide)
  rcases List.suffix_cons_iff.mp hs with rfl | hs
  · -- `ctor…`: the `code` branch dies at the second character
    show tryCodeLabel (g3 :: g4 :: g5 :: g6 :: z) = none
    have fcode : ciStrip "code".data (g3 :: g4 :: g5 :: g6 :: z) = none :=
      ciStrip_none_tail (ciStrip_none_head _ _
        (show (g4.toLower == 'o') = false by rw [hg4]; decide))
    simp only [tryCodeLabel, fcode,
      ciStrip_none_head _ _ (show (g3.toLower == '2') = false by rw [hg3]; decide),
      tryTwoFactor_none_head _ (show (g3.toLower == 't') = false by rw [hg3]; decide),
      ciStrip_none_head _ _ (show (g3.toLower == 'o') = false by rw [hg3]; decide)]
  rcases List.suffix_cons_iff.mp hs with rfl | hs
  · -- `tor…`: the `two…` branch dies at the second character
    show tryCodeLabel (g4 :: g5 :: g6 :: z) = none
    have htw : ciStrip "two".data (g4 :: g5 :: g6 :: z) = none :=
      ciStrip_none_tail (ciStrip_none_head _ _
        (show (g5.toLower == 'w') = false by rw [hg5]; decide))
    simp only [tryCodeLabel,
      ciStrip_none_head _ _ (show (g4.toLower == 'c') = false by rw [hg4]; decide),
      ciStrip_none_head _ _ (show (g4.toLower == '2') = false by rw [hg4]; decide),
      tryTwoFactor_none_strip htw,
      ciStrip_none_head _ _ (show (g4.toLower == 'o') = false by rw [hg4]; decide)]
  rcases List.suffix_cons_iff.mp hs with rfl | hs
  · -- `or…`: the `otp` branch dies at the second character
    show tryCodeLabel (g5 :: g6 :: z) = none
    have fotp : ciStrip "otp".data (g5 :: g6 :: z) = none :=
      ciStrip_none_tail (ciStrip_none_head _ _
        (show (g6.toLower == 't') = false by rw [hg6]; decide))
    simp only [tryCodeLabel,
      ciStrip_none_head _ _ (show (g5.toLower == 'c') = false by rw [hg5]; decide),
      ciStrip_none_head _ _ (show (g5.toLower == '2') = false by rw [hg5]; decide),
      tryTwoFactor_none_head _ (show (g5.toLower == 't') = false by rw [hg5]; decide),
      fotp]
  rcases List.suffix_cons_iff.mp hs with rfl | hs
  · exact tryCodeLabel_none_head _ (by rw [hg6]; decide) (by rw [hg6]; decide)
      (by rw [hg6]; decide) (by rw [hg6]; decide)
  · exact absurd (List.suffix_nil.mp hs) hnil

/-- Every proper nonempty suffix of a matched code label is a dead end for
the label alternation, whatever follows. -/
theorem labShape_interior {lab : List Char} (hsh : LabShape lab) :
    ∀ s, s <:+ lab → s ≠ lab → s ≠ [] → ∀ z, tryCodeLabel (s ++ z) = none := by
  rcases hsh with hm | hm | hm | ⟨o1, f, o2, rfl, hm1, hm2, -⟩ |
    ⟨o1, cS, f, o2, rfl, hm1, hm2, hsep⟩
  · -- `code`
    obtain ⟨x1, t1, rfl, h1, hm⟩ := map_toLower_cons hm
    obtain ⟨x2, t2, rfl, h2, hm⟩ := map_toLower_cons hm
    obtain ⟨x3, t3, rfl, h3, hm⟩ := map_toLower_cons hm
    obtain ⟨x4, t4, rfl, h4, hm⟩ := map_toLower_cons hm
    have ht4 : t4 = [] := List.map_eq_nil.mp hm
    subst ht4
    intro s hs hne hnil z
    rcases List.suffix_cons_iff.mp hs with rfl | hs
    · exact absurd rfl hne
    rcases List.suffix_cons_iff.mp hs with rfl | hs
    · show tryCodeLabel (x2 :: x3 :: x4 :: z) = none
      have fotp : ciStrip "otp".data (x2 :: x3 :: x4 :: z) = none :=
        ciStrip_none_tail (ciStrip_none_head _ _
          (show (x3.toLower == 't') = false by rw [h3]; decide))
      simp only [tryCodeLabel,
        ciStrip_none_head _ _ (show (x2.toLower == 'c') = false by rw [h2]; decide),
        ciStrip_none_head _ _ (show (x2.toLower == '2') = false by rw [h2]; decide),
        tryTwoFactor_none_head _ (show (x2.toLower == 't') = false by rw [h2]; decide),
        fotp]
    rcases List.suffix_cons_iff.mp hs with rfl | hs
    · exact tryCodeLabel_none_head _ (by rw [h3]; decide) (by rw [h3]; decide)
        (by rw [h3]; decide) (by rw [h3]; decide)
    rcases List.suffix_cons_iff.mp hs with rfl | hs
    · exact tryCodeLabel_none_head _ (by rw [h4]; decide) (by rw [h4]; decide)
        (by rw [h4]; decide) (by rw [h4]; decide)
    · exact absurd (List.suffix_nil.mp hs) hnil
  · -- `2fa`
    obtain ⟨x1, t1, rfl, h1, hm⟩ := map_toLower_cons hm
    obtain ⟨x2, t2, rfl, h2, hm⟩ := map_toLower_cons hm
    obtain ⟨x3, t3, rfl, h3, hm⟩ := map_toLower_cons hm
    have ht3 : t3 = [] := List.map_eq_nil.mp hm
    subst ht3
    intro s hs hne hnil z
    rcases List.suffix_cons_iff.mp hs with rfl | hs
    · exact absurd rfl hne
    rcases List.suffix_cons_iff.mp hs with rfl | hs
    · exact tryCodeLabel_none_head _ (by rw [h2]; decide) (by rw [h2]; decide)
        (by rw [h2]; decide) (by rw [h2]; decide)
    rcases List.suffix_cons_iff.mp hs with rfl | hs
    · exact tryCodeLabel_none_head _ (by rw [h3]; decide) (by rw [h3]; decide)
        (by rw [h3]; decide) (by rw [h3]; decide)
    · exact absurd (List.suffix_nil.mp hs) hnil
  · -- `otp`
    obtain ⟨x1, t1, rfl, h1, hm⟩ := map_toLower_cons hm
    obtain ⟨x2, t2, rfl, h2, hm⟩ := map_toLower_cons hm
    obtain ⟨x3, t3, rfl, h3, hm⟩ := map_toLower_cons hm
    have ht3 : t3 = [] := List.map_eq_nil.mp hm
    subst ht3
    intro s hs hne hnil z
    rcases List.suffix_cons_iff.mp hs with rfl | hs
    · exact absurd rfl hne
    rcases List.suffix_cons_iff.mp hs with rfl | hs
    · show tryCodeLabel (x2 :: x3 :: z) = none
      have htw : ciStrip "two".data (x2 :: x3 :: z) = none :=
        ciStrip_none_tail (ciStrip_none_head _ _
          (show (x3.toLower == 'w') = false by rw [h3]; decide))
      simp only [tryCodeLabel,
        ciStrip_none_head _ _ (show (x2.toLower == 'c') = false by rw [h2]; decide),
        ciStrip_none_head _ _ (show (x2.toLower == '2') = false by rw [h2]; decide),
        tryTwoFactor_none_strip htw,
        ciStrip_none_head _ _ (show (x2.toLower == 'o') = false by rw [h2]; decide)]
    rcases List.suffix_cons_iff.mp hs with rfl | hs
    · exact tryCodeLabel_none_head _ (by rw [h3]; decide) (by rw [h3]; decide)
        (by rw [h3]; decide) (by rw [h3]; decide)
    · exact absurd (List.suffix_nil.mp hs) hnil
  · -- `two` directly followed by `factor`
    obtain ⟨hff, o2f, heqf, hf, -⟩ := map_toLower_cons hm2
    obtain ⟨rfl, rfl⟩ := List.cons.injEq .. |>.mp heqf
    obtain ⟨w1, u1, rfl, hw1, hm1⟩ := map_toLower_cons hm1
    obtain ⟨w2, u2, rfl, hw2, hm1⟩ := map_toLower_cons hm1
    obtain ⟨w3, u3, rfl, hw3, hm1⟩ := map_toLower_cons hm1
    have hu3 : u3 = [] := List.map_eq_nil.mp hm1
    subst hu3
    intro s hs hne hnil z
    rcases suffix_append_cases hs with hsf | ⟨a', ha', rfl⟩
    · exact factor_suffix_none hm2 s hsf hnil z
    · rcases List.suffix_cons_iff.mp ha' with rfl | ha'
      · exact absurd rfl hne
      rcases List.suffix_cons_iff.mp ha' with rfl | ha'
      · exact tryCodeLabel_none_head _ (by rw [hw2]; decide) (by rw [hw2]; decide)
          (by rw [hw2]; decide) (by rw [hw2]; decide)
      rcases List.suffix_cons_iff.mp ha' with rfl | ha'
      · -- `o` then `factor…`: the `otp` branch dies at the second character
        show tryCodeLabel (w3 :: f :: (o2 ++ z)) = none
        have fotp : ciStrip "otp".data (w3 :: f :: (o2 ++ z)) = none :=
          ciStrip_none_tail (ciStrip_none_head _ _
            (show (f.toLower == 't') = false by rw [hf]; decide))
        simp only [tryCodeLabel,
          ciStrip_none_head _ _ (show (w3.toLower == 'c') = false by rw [hw3]; decide),
          ciStrip_none_head _ _ (show (w3.toLower == '2') = false by rw [hw3]; decide),
          tryTwoFactor_none_head _ (show (w3.toLower == 't') = false by rw [hw3]; decide),
          fotp]
      · have ha0 : a' = [] := List.suffix_nil.mp ha'
        subst ha0
        exact factor_suffix_none hm2 (f :: o2) List.suffix_rfl (List.cons_ne_nil f o2) z
  · -- `two`, a separator, then `factor`
    obtain ⟨w1, u1, rfl, hw1, hm1⟩ := map_toLower_cons hm1
    obtain ⟨w2, u2, rfl, hw2, hm1⟩ := map_toLower_cons hm1
    obtain ⟨w3, u3, rfl, hw3, hm1⟩ := map_toLower_cons hm1
    have hu3 : u3 = [] := List.map_eq_nil.mp hm1
    subst hu3
    intro s hs hne hnil z
    rcases suffix_append_cases hs with hsf | ⟨a', ha', rfl⟩
    · rcases List.suffix_cons_iff.mp hsf with rfl | hsf
      · exact dashws_not_labelhead hsep _
      · exact factor_suffix_none hm2 s hsf hnil z
    · rcases List.suffix_cons_iff.mp ha' with rfl | ha'
      · exact absurd rfl hne
      rcases List.suffix_cons_iff.mp ha' with rfl | ha'
      · exact tryCodeLabel_none_head _ (by rw [hw2]; decide) (by rw [hw2]; decide)
          (by rw [hw2]; decide) (by rw [hw2]; decide)
      rcases List.suffix_cons_iff.mp ha' with rfl | ha'
      · show tryCodeLabel (w3 :: cS :: (f :: o2 ++ z)) = none
        have fotp : ciStrip "otp".data (w3 :: cS :: (f :: o2 ++ z)) = none :=
          ciStrip_none_tail (ciStrip_none_head _ _ (dashws_not_t hsep))
        simp only [tryCodeLabel,
          ciStrip_none_head _ _ (show (w3.toLower == 'c') = false by rw [hw3]; decide),
          ciStrip_none_head _ _ (show (w3.toLower == '2') = false by rw [hw3]; decide),
          tryTwoFactor_none_head _ (show (w3.toLower == 't') = false by rw [hw3]; decide),
          fotp]
      · have ha0 : a' = [] := List.suffix_nil.mp ha'
        subst ha0
        exact dashws_not_labelhead hsep _

/-- The whole replacement block of the code pass never rematches: after
the label and the separator run comes a star, so the digit group is empty. -/
theorem tryCode_block_none {lab run : List Char} (hsh : LabShape lab)
    (hrun : ∀ a ∈ run, (a == ':' || a == '=' || isJsWs a) = true) (w : List Char) :
    tryCode (lab ++ (run ++ '*' :: w)) = none := by
  have hl := tryCodeLabel_of_shape hsh (run ++ '*' :: w)
  have htw : (run ++ '*' :: w).takeWhile (fun c => c == ':' || c == '=' ||
      isJsWs c) = run := by
    rcases takeWhile_append_split (fun c => c == ':' || c == '=' || isJsWs c)
        run ('*' :: w) with ⟨-, b, hb, hpb⟩ | ⟨-, h2⟩
    · exact absurd (hrun b (get?_mem' hb)) (by simp [hpb])
    · rw [h2, show ('*' :: w).takeWhile (fun c => c == ':' || c == '=' ||
        isJsWs c) = [] from by rw [List.takeWhile_cons, if_neg (by decide)],
        List.append_nil]
  simp only [tryCode, hl]
  rw [htw, List.drop_left]
  rw [show ('*' :: w).takeWhile isDigitC = [] from by
    rw [List.takeWhile_cons, if_neg (by decide)]]
  by_cases he : run.isEmpty = true
  · rw [if_pos he]
  · rw [if_neg he, if_pos (by decide)]

/-! ### The code pattern matches nowhere in the output of passes 3–6 -/

theorem suffix_append_both {s L : List Char} (M : List Char) (h : s <:+ L) :
    s ++ M <:+ L ++ M := by
  obtain ⟨q, hq⟩ := h
  exact ⟨q, by rw [← List.append_assoc, hq]⟩

theorem star_suffix {k : Nat} {s : List Char} (hs : s <:+ List.replicate k '*') :
    s = [] ∨ ∃ s', s = '*' :: s' := by
  cases s with
  | nil => exact Or.inl rfl
  | cons a s' =>
    right
    refine ⟨s', ?_⟩
    obtain ⟨q, hq⟩ := hs
    have hmem : a ∈ List.replicate k '*' := by
      rw [← hq]
      exact List.mem_append.mpr (Or.inr (List.mem_cons_self a s'))
    rw [List.eq_of_mem_replicate hmem]

theorem drop_tail_suffix {x P rest : List Char} {c : Char} (n : Nat) (hx : x = P ++ c :: rest) :
    rest.drop n <:+ x := by
  rw [hx]
  exact ((List.drop_suffix n rest).trans (List.suffix_cons c rest)).trans
    (List.suffix_append P (c :: rest))

/-- A pre-match scan position, transported to suffix form. -/
theorem pre_none {x P rest : List Char} {c : Char} (hx : x = P ++ c :: rest)
    (hpre : ∀ k, k < P.length → tryCode (x.drop k) = none)
    {s : List Char} (hs : s <:+ P) (hne : s ≠ []) :
    tryCode (s ++ c :: rest) = none := by
  obtain ⟨q, hq⟩ := hs
  have hk : q.length < P.length := by
    have hlen := congrArg List.length hq
    rw [List.length_append] at hlen
    have hslen : 0 < s.length := List.length_pos.mpr hne
    omega
  have h := hpre q.length hk
  rw [hx, ← hq, List.append_assoc, List.drop_left] at h
  exact h

/-- Establishment: after the code pass runs, no suffix of the output — even
with clean material `A` prepended — matches the code pattern. -/
theorem codeFree_scan3 : ∀ (N : Nat) (x A : List Char), x.length ≤ N →
    (∀ s, s <:+ A → s ≠ [] → tryCode (s ++ x) = none) →
    ∀ t, t <:+ A ++ globalReplace tryCode x → tryCode t = none := by
  intro N
  induction N with
  | zero =>
    intro x A hlen hleft t ht
    have hx : x = [] := List.eq_nil_of_length_eq_zero (Nat.le_zero.mp hlen)
    subst hx
    rw [show globalReplace tryCode [] = [] from rfl, List.append_nil] at ht
    cases t with
    | nil => rfl
    | cons a t' =>
      have h := hleft (a :: t') ht (List.cons_ne_nil a t')
      rw [List.append_nil] at h
      exact h
  | succ N ih =>
    intro x A hlen hleft
    rcases scan_decomp tryCode rfl x with hnone | ⟨P, c, rest, rep, n, hx, hpre, hmatch, heq⟩
    · rw [globalReplace_id_of_noMatch tryCode x hnone]
      intro t ht
      rcases suffix_append_cases ht with htx | ⟨s, hsA, rfl⟩
      · exact hnone t htx
      · cases s with
        | nil => exact hnone x List.suffix_rfl
        | cons a s' => exact hleft (a :: s') hsA (List.cons_ne_nil a s')
    · obtain ⟨lab, r1, hlabel, hcr, hsh, hrun4, hds4, hrepeq, hneq⟩ := tryCode_spec hmatch
      obtain ⟨u, hu⟩ :=
        List.takeWhile_prefix (l := r1) (p := fun a => a == ':' || a == '=' || isJsWs a)
      set run := r1.takeWhile (fun a => a == ':' || a == '=' || isJsWs a) with hrundef
      have hrunmem : ∀ a ∈ run, (a == ':' || a == '=' || isJsWs a) = true := by
        intro a ha
        rw [hrundef] at ha
        have ha' := List.mem_takeWhile_imp ha
        exact ha'
      have hleft2 : ∀ s, s <:+ (A ++ P) ++ rep → s ≠ [] →
          tryCode (s ++ rest.drop n) = none := by
        intro s hsuf hsne
        rcases suffix_append_cases hsuf with hsrep | ⟨s₂, hs₂, rfl⟩
        · rw [hrepeq] at hsrep
          rcases suffix_append_cases hsrep with hstar | ⟨s', hs', rfl⟩
          · have hstar' : s <:+ List.replicate 6 '*' := by
              rw [show ("******".data : List Char) = List.replicate 6 '*' from rfl] at hstar
              exact hstar
            rcases star_suffix hstar' with rfl | ⟨s', rfl⟩
            · exact absurd rfl hsne
            · exact tryCode_star _
          · rcases suffix_append_cases hs' with hsrun | ⟨s'', hs'', rfl⟩
            · cases s' with
              | nil => exact tryCode_star _
              | cons b s₃ =>
                have hbmem : b ∈ run := by
                  obtain ⟨q, hq⟩ := hsrun
                  rw [← hq]
                  exact List.mem_append.mpr (Or.inr (List.mem_cons_self b s₃))
                exact tryCode_none_of_label (sep_not_labelhead (hrunmem b hbmem) _)
            · by_cases hlabfull : s'' = lab
              · subst hlabfull
                rw [List.append_assoc, List.append_assoc,
                  show ("******".data : List Char) = '*' :: "*****".data from rfl,
                  List.cons_append]
                exact tryCode_block_none hsh hrunmem _
              · cases s'' with
                | nil =>
                  obtain ⟨b, rtail, hrc⟩ := List.exists_cons_of_ne_nil hrun4
                  have hsep := hrunmem b (by rw [hrc]; exact List.mem_cons_self b rtail)
                  rw [List.nil_append, hrc]
                  exact tryCode_none_of_label (sep_not_labelhead hsep _)
                | cons b s₃ =>
                  rw [List.append_assoc, List.append_assoc]
                  exact tryCode_none_of_label
                    (labShape_interior hsh _ hs'' hlabfull (List.cons_ne_nil b s₃) _)
        · cases s₂ with
          | nil =>
            rw [List.nil_append, hrepeq, List.append_assoc, List.append_assoc,
              show ("******".data : List Char) = '*' :: "*****".data from rfl,
              List.cons_append]
            exact tryCode_block_none hsh hrunmem _
          | cons b s₃ =>
            have horig : tryCode ((b :: s₃) ++ (c :: rest)) = none := by
              rcases suffix_append_cases hs₂ with hsP | ⟨s₄, hs₄, hfeq⟩
              · exact pre_none hx hpre hsP (List.cons_ne_nil b s₃)
              · cases s₄ with
                | nil =>
                  rw [List.nil_append] at hfeq
                  have hs : (b :: s₃) <:+ P := by rw [hfeq]
                  exact pre_none hx hpre hs (List.cons_ne_nil b s₃)
                | cons d s₅ =>
                  have h5 := hleft (d :: s₅) hs₄ (List.cons_ne_nil d s₅)
                  rw [hx] at h5
                  rw [hfeq, List.append_assoc]
                  exact h5
            have horig2 : tryCode ((((b :: s₃) ++ lab) ++ run) ++ u) = none := by
              rw [List.append_assoc, List.append_assoc, hu, ← hcr]
              exact horig
            have hcut := cut3 (((b :: s₃) ++ lab) ++ run) u
              ("*****".data ++ rest.drop n) horig2
            rw [hrepeq, show ("******".data : List Char) = '*' :: "*****".data from rfl]
            simp only [List.append_assoc, List.cons_append] at hcut ⊢
            exact hcut
      have hlen2 : (rest.drop n).length ≤ N := by
        have hxlen := congrArg List.length hx
        rw [List.length_append, List.length_cons] at hxlen
        have hdl : (rest.drop n).length = rest.length - n := List.length_drop n rest
        omega
      intro t ht
      rw [heq] at ht
      apply ih (rest.drop n) ((A ++ P) ++ rep) hlen2 hleft2 t
      simp only [List.append_assoc]
      exact ht

/-- Preservation through any pass whose replacement text is always `"***"`
(the long-hex and base64 passes). -/
theorem codeFree_scan_star (try1 : List Char → Option (List Char × Nat))
    (hnil : try1 [] = none)
    (hstar : ∀ l rep n, try1 l = some (rep, n) → rep = "***".data) :
    ∀ (N : Nat) (x A : List Char), x.length ≤ N →
      (∀ t, t <:+ A ++ x → tryCode t = none) →
      ∀ t, t <:+ A ++ globalReplace try1 x → tryCode t = none := by
  intro N
  induction N with
  | zero =>
    intro x A hlen H t ht
    have hx : x = [] := List.eq_nil_of_length_eq_zero (Nat.le_zero.mp hlen)
    subst hx
    exact H t ht
  | succ N ih =>
    intro x A hlen H
    rcases scan_decomp try1 hnil x with hnone | ⟨P, c, rest, rep, n, hx, hpre, hmatch, heq⟩
    · rw [globalReplace_id_of_noMatch try1 x hnone]
      exact H
    · have hrep3 := hstar _ _ _ hmatch
      subst hrep3
      have H2 : ∀ t, t <:+ ((A ++ P) ++ "***".data) ++ rest.drop n →
          tryCode t = none := by
        intro t ht
        rcases suffix_append_cases ht with htx | ⟨s, hsuf, rfl⟩
        · exact H t (htx.trans ((drop_tail_suffix n hx).trans (List.suffix_append A x)))
        · rcases suffix_append_cases hsuf with hstars | ⟨s₂, hs₂, rfl⟩
          · have hstars' : s <:+ List.replicate 3 '*' := by
              rw [show ("***".data : List Char) = List.replicate 3 '*' from rfl] at hstars
              exact hstars
            rcases star_suffix hstars' with rfl | ⟨s', rfl⟩
            · exact H _ ((drop_tail_suffix n hx).trans (List.suffix_append A x))
            · exact tryCode_star _
          · cases s₂ with
            | nil => exact tryCode_star _
            | cons b s₃ =>
              have horig : tryCode ((b :: s₃) ++ (c :: rest)) = none := by
                apply H
                rw [hx, ← List.append_assoc]
                exact suffix_append_both (c :: rest) hs₂
              have hcut := cut3 (b :: s₃) (c :: rest) ("**".data ++ rest.drop n) horig
              rw [show ("***".data : List Char) = '*' :: "**".data from rfl]
              simp only [List.append_assoc, List.cons_append] at hcut ⊢
              exact hcut
      have hlen2 : (rest.drop n).length ≤ N := by
        have hxlen := congrArg List.length hx
        rw [List.length_append, List.length_cons] at hxlen
        have hdl : (rest.drop n).length = rest.length - n := List.length_drop n rest
        omega
      intro t ht
      rw [heq] at ht
      apply ih (rest.drop n) ((A ++ P) ++ "***".data) hlen2 H2 t
      simp only [List.append_assoc]
      exact ht

/-- Preservation through the email pass: its replacement keeps the first
character and the domain text, and puts stars in between. -/
theorem codeFree_scan_email :
    ∀ (N : Nat) (x A : List Char), x.length ≤ N →
      (∀ t, t <:+ A ++ x → tryCode t = none) →
      ∀ t, t <:+ A ++ globalReplace tryEmail x → tryCode t = none := by
  intro N
  induction N with
  | zero =>
    intro x A hlen H t ht
    have hx : x = [] := List.eq_nil_of_length_eq_zero (Nat.le_zero.mp hlen)
    subst hx
    exact H t ht
  | succ N ih =>
    intro x A hlen H
    rcases scan_decomp tryEmail rfl x with hnone | ⟨P, c, rest, rep, n, hx, hpre, hmatch, heq⟩
    · rw [globalReplace_id_of_noMatch tryEmail x hnone]
      exact H
    · obtain ⟨mid, r2, dom, i, mm, hmid, hrest, hsplit, hle, hdom, hrepeq, hneq, hdropn⟩ :=
        tryEmail_spec hmatch
      have hr2 : r2 = dom ++ r2.drop (i + 1 + mm) := by
        rw [hdom]
        exact (List.take_append_drop _ _).symm
      have H2 : ∀ t, t <:+ ((A ++ P) ++ rep) ++ rest.drop n → tryCode t = none := by
        intro t ht
        rcases suffix_append_cases ht with htx | ⟨s, hsuf, rfl⟩
        · exact H t (htx.trans ((drop_tail_suffix n hx).trans (List.suffix_append A x)))
        · rcases suffix_append_cases hsuf with hsrep | ⟨s₂, hs₂, rfl⟩
          · rw [hrepeq] at hsrep
            rcases List.suffix_cons_iff.mp hsrep with rfl | hsrep
            · rw [List.cons_append]
              exact tryCode_none_of_label (tryCodeLabel_star2 c _)
            rcases List.suffix_cons_iff.mp hsrep with rfl | hsrep
            · exact tryCode_star _
            rcases List.suffix_cons_iff.mp hsrep with rfl | hsrep
            · exact tryCode_star _
            rcases List.suffix_cons_iff.mp hsrep with rfl | hsrep
            · exact tryCode_star _
            · -- `s` lies in the preserved `@domain` text
              apply H
              have hsx : s ++ rest.drop n <:+ ('@' :: dom) ++ rest.drop n :=
                suffix_append_both _ hsrep
              have hat : '@' :: r2 = ('@' :: dom) ++ r2.drop (i + 1 + mm) :=
                congrArg (List.cons '@') hr2
              have hchain : ('@' :: dom) ++ rest.drop n <:+ x := by
                rw [hdropn, hx, hrest, hat]
                exact ((List.suffix_append mid _).trans
                  (List.suffix_cons c _)).trans (List.suffix_append P _)
              exact (hsx.trans hchain).trans (List.suffix_append A x)
          · cases s₂ with
            | nil =>
              rw [List.nil_append, hrepeq, List.cons_append]
              exact tryCode_none_of_label (tryCodeLabel_star2 c _)
            | cons b s₃ =>
              have horig : tryCode ((b :: s₃) ++ (c :: rest)) = none := by
                apply H
                rw [hx, ← List.append_assoc]
                exact suffix_append_both (c :: rest) hs₂
              have horig2 : tryCode (((b :: s₃) ++ [c]) ++ (mid ++ '@' :: r2)) = none := by
                rw [List.append_assoc, ← hrest]
                exact horig
              have hcut := cut3 ((b :: s₃) ++ [c]) (mid ++ '@' :: r2)
                ('*' :: '*' :: '@' :: (dom ++ rest.drop n)) horig2
              rw [hrepeq]
              simp only [List.append_assoc, List.cons_append] at hcut ⊢
              exact hcut
      have hlen2 : (rest.drop n).length ≤ N := by
        have hxlen := congrArg List.length hx
        rw [List.length_append, List.length_cons] at hxlen
        have hdl : (rest.drop n).length = rest.length - n := List.length_drop n rest
        omega
      intro t ht
      rw [heq] at ht
      apply ih (rest.drop n) ((A ++ P) ++ rep) hlen2 H2 t
      simp only [List.append_assoc]
      exact ht

/-- No suffix matches the code pattern. -/
def CodeFree (l : List Char) : Prop := ∀ t, t <:+ l → tryCode t = none

theorem codeFree_code (x : List Char) : CodeFree (globalReplace tryCode x) := by
  intro t ht
  exact codeFree_scan3 x.length x [] le_rfl
    (fun s hs hne => absurd (List.suffix_nil.mp hs) hne) t ht

theorem CodeFree.hex {x : List Char} (h : CodeFree x) :
    CodeFree (globalReplace tryHex x) := by
  intro t ht
  exact codeFree_scan_star tryHex rfl (fun l rep n hm => tryHex_rep hm)
    x.length x [] le_rfl (fun t' ht' => h t' ht') t ht

theorem CodeFree.b64 {x : List Char} (h : CodeFree x) :
    CodeFree (globalReplace tryB64 x) := by
  intro t ht
  exact codeFree_scan_star tryB64 rfl (fun l rep n hm => tryB64_rep hm)
    x.length x [] le_rfl (fun t' ht' => h t' ht') t ht

theorem CodeFree.email {x : List Char} (h : CodeFree x) :
    CodeFree (globalReplace tryEmail x) := by
  intro t ht
  exact codeFree_scan_email x.length x [] le_rfl (fun t' ht' => h t' ht') t ht

/-- The code pass is the identity on any code-free string. -/
theorem code_id_of_codeFree {l : List Char} (h : CodeFree l) :
    globalReplace tryCode l = l :=
  globalReplace_id_of_noMatch tryCode l h

/-! ### Stability of the bearer pass -/

theorem split_prefix_le {A w o r : List Char} (heq : A ++ w = o ++ r)
    (hle : o.length ≤ A.length) : ∃ B, A = o ++ B ∧ r = B ++ w := by
  refine ⟨A.drop o.length, ?_, ?_⟩
  · have h1 := congrArg (List.take o.length) heq
    rw [List.take_append_of_le_length hle, List.take_left] at h1
    conv_lhs => rw [← List.take_append_drop o.length A, h1]
  · have h2 := congrArg (List.drop o.length) heq
    rw [List.drop_append_of_le_length hle, List.drop_left] at h2
    exact h2.symm

/-- A case-insensitive match that fits within `A` is insensitive to what
follows `A`. -/
theorem ciStrip_confine {p A w o r : List Char}
    (h : ciStrip p (A ++ w) = some (o, r)) (hle : o.length ≤ A.length) :
    ∃ B, A = o ++ B ∧ r = B ++ w ∧ ∀ w', ciStrip p (A ++ w') = some (o, B ++ w') := by
  obtain ⟨heq, hmap⟩ := ciStrip_spec _ _ h
  obtain ⟨B, hA, hr⟩ := split_prefix_le heq hle
  refine ⟨B, hA, hr, ?_⟩
  intro w'
  rw [hA, List.append_assoc]
  exact ciStrip_of_map hmap (B ++ w')

/-- A case-insensitive match that overruns `A` forces the first character of
the continuation to fold onto the corresponding pattern character. -/
theorem ciStrip_cross {p A w o r : List Char}
    (h : ciStrip p (A ++ w) = some (o, r)) (hlt : A.length < o.length) :
    ∃ c w', w = c :: w' ∧ ∃ pc, p.get? A.length = some pc ∧ c.toLower = pc := by
  obtain ⟨heq, hmap⟩ := ciStrip_spec _ _ h
  obtain ⟨B, ho, hw⟩ := split_prefix_le heq.symm (le_of_lt hlt)
  cases B with
  | nil =>
    rw [ho] at hlt
    simp at hlt
  | cons c B' =>
    refine ⟨c, B' ++ r, by rw [hw, List.cons_append], c.toLower, ?_, rfl⟩
    have h1 : o.get? A.length = some c := by
      rw [ho, List.get?_append_right le_rfl]
      simp
    have h2 := congrArg (fun l => l.get? A.length) hmap
    simp only [List.get?_map, h1] at h2
    exact h2.symm

/-- Scan positions before the first match, in suffix form. -/
theorem scan_pre_none (try1 : List Char → Option (List Char × Nat))
    {x P rest : List Char} {c : Char} (hx : x = P ++ c :: rest)
    (hpre : ∀ k, k < P.length → try1 (x.drop k) = none)
    {s : List Char} (hs : s <:+ P) (hne : s ≠ []) :
    try1 (s ++ c :: rest) = none := by
  obtain ⟨q, hq⟩ := hs
  have hk : q.length < P.length := by
    have hlen := congrArg List.length hq
    rw [List.length_append] at hlen
    have hslen : 0 < s.length := List.length_pos.mpr hne
    omega
  have h := hpre q.length hk
  rw [hx, ← hq, List.append_assoc, List.drop_left] at h
  exact h

/-- Email-start characters are in none of the special character classes of
the redaction patterns. -/
theorem emailStart_class {c : Char} (h : isEmailStartC c = true) :
    isJsWs c = false ∧ (c == '"') = false ∧ (c == '\'') = false ∧
    (c == '&') = false ∧ (c == ':') = false ∧ (c == '=') = false := by
  refine ⟨?_, ?_, ?_, ?_, ?_, ?_⟩
  · cases hw : isJsWs c with
    | false => rfl
    | true =>
      rw [ws_not_emailStart hw] at h
      exact Bool.noConfusion h
  all_goals
    refine Bool.eq_false_iff.mpr fun hb => ?_
    rw [beq_iff_eq.mp hb] at h
    exact absurd h (by decide)

theorem isDigitC_emailStart {c : Char} (h : isDigitC c = true) :
    isEmailStartC c = true := by
  simp only [isEmailStartC, h]
  simp

theorem isHexC_emailStart {c : Char} (h : isHexC c = true) :
    isEmailStartC c = true := by
  simp only [isHexC, Bool.or_eq_true, Bool.and_eq_true, decide_eq_true_eq] at h
  rcases h with (h | ⟨h1, h2⟩) | ⟨h1, h2⟩
  · exact isDigitC_emailStart h
  · have hA : isAsciiLetter c = true := by
      simp only [isAsciiLetter, Bool.or_eq_true, Bool.and_eq_true, decide_eq_true_eq]
      exact Or.inl ⟨h1, le_trans h2 (by decide)⟩
    simp [isEmailStartC, hA]
  · have hA : isAsciiLetter c = true := by
      simp only [isAsciiLetter, Bool.or_eq_true, Bool.and_eq_true, decide_eq_true_eq]
      exact Or.inr ⟨h1, le_trans h2 (by decide)⟩
    simp [isEmailStartC, hA]

theorem isAsciiLetter_emailStart {c : Char} (h : isAsciiLetter c = true) :
    isEmailStartC c = true := by
  simp only [isEmailStartC, h]
  simp

/-- The bearer value class accepts every email-start character. -/
theorem bearerV_of_emailStart {c : Char} (h : isEmailStartC c = true) :
    isJsWs c = false ∧ (!(isJsWs c) && c != '"' && c != '\'') = true := by
  obtain ⟨h1, h2, h3, -, -, -⟩ := emailStart_class h
  exact ⟨h1, by simp [bne, h1, h2, h3]⟩

theorem isB64C_bearer {c : Char} (h : isB64C c = true) :
    isJsWs c = false ∧ (!(isJsWs c) && c != '"' && c != '\'') = true := by
  simp only [isB64C, Bool.or_eq_true] at h
  rcases h with ((h | h) | h) | h
  · exact bearerV_of_emailStart (isAsciiLetter_emailStart h)
  · exact bearerV_of_emailStart (isDigitC_emailStart h)
  · rw [beq_iff_eq.mp h]
    exact ⟨by decide, by decide⟩
  · rw [beq_iff_eq.mp h]
    exact ⟨by decide, by decide⟩

/-- Structure of a bearer-pass match. -/
theorem tryBearer_spec {l rep : List Char} {n : Nat} (h : tryBearer l = some (rep, n)) :
    ∃ bt r1, ciStrip "bearer".data l = some (bt, r1) ∧ l = bt ++ r1 ∧
      bt.map Char.toLower = "bearer".data ∧
      r1.takeWhile isJsWs ≠ [] ∧
      ((r1.drop (r1.takeWhile isJsWs).length).takeWhile
        (fun c => !(isJsWs c) && c != '"' && c != '\'')) ≠ [] ∧
      rep = "Bearer ***".data ∧
      n + 1 = 6 + (r1.takeWhile isJsWs).length +
        ((r1.drop (r1.takeWhile isJsWs).length).takeWhile
          (fun c => !(isJsWs c) && c != '"' && c != '\'')).length := by
  simp only [tryBearer] at h
  cases h1 : ciStrip "bearer".data l with
  | none =>
    rw [h1] at h
    exact Option.noConfusion h
  | some p =>
    obtain ⟨bt, r1⟩ := p
    rw [h1] at h
    obtain ⟨hl, hmap⟩ := ciStrip_spec _ _ h1
    have h' : (if (r1.takeWhile isJsWs).isEmpty = true then none
      else if ((r1.drop (r1.takeWhile isJsWs).length).takeWhile
          (fun c => !(isJsWs c) && c != '"' && c != '\'')).isEmpty = true then none
      else some ("Bearer ***".data,
        5 + (r1.takeWhile isJsWs).length +
        ((r1.drop (r1.takeWhile isJsWs).length).takeWhile
          (fun c => !(isJsWs c) && c != '"' && c != '\'')).length)) = some (rep, n) := h
    by_cases he : (r1.takeWhile isJsWs).isEmpty = true
    · rw [if_pos he] at h'
      exact Option.noConfusion h'
    · rw [if_neg he] at h'
      by_cases hve : ((r1.drop (r1.takeWhile isJsWs).length).takeWhile
          (fun c => !(isJsWs c) && c != '"' && c != '\'')).isEmpty = true
      · rw [if_pos hve] at h'
        exact Option.noConfusion h'
      · rw [if_neg hve] at h'
        injection h' with hpair
        injection hpair with hrep hn
        refine ⟨bt, r1, rfl, hl, hmap, ?_, ?_, hrep.symm, by omega⟩
        · intro hnil
          rw [hnil] at he
          exact he rfl
        · intro hnil
          rw [hnil] at hve
          exact hve rfl

/-- Matching parts suffice for a bearer match. -/
theorem tryBearer_parts {l bt r1 : List Char}
    (h1 : ciStrip "bearer".data l = some (bt, r1))
    (hws : r1.takeWhile isJsWs ≠ [])
    (hv : ((r1.drop (r1.takeWhile isJsWs).length).takeWhile
      (fun c => !(isJsWs c) && c != '"' && c != '\'')) ≠ []) :
    tryBearer l ≠ none := by
  intro h
  simp only [tryBearer, h1] at h
  have h' : (if (r1.takeWhile isJsWs).isEmpty = true then none
    else if ((r1.drop (r1.takeWhile isJsWs).length).takeWhile
        (fun c => !(isJsWs c) && c != '"' && c != '\'')).isEmpty = true then none
    else some ("Bearer ***".data,
      5 + (r1.takeWhile isJsWs).length +
      ((r1.drop (r1.takeWhile isJsWs).length).takeWhile
        (fun c => !(isJsWs c) && c != '"' && c != '\'')).length)) = none := h
  by_cases he : (r1.takeWhile isJsWs).isEmpty = true
  · apply hws
    cases hB : r1.takeWhile isJsWs with
    | nil => rfl
    | cons a t =>
      rw [hB] at he
      exact absurd he (by simp)
  · rw [if_neg he] at h'
    by_cases hve : ((r1.drop (r1.takeWhile isJsWs).length).takeWhile
        (fun c => !(isJsWs c) && c != '"' && c != '\'')).isEmpty = true
    · apply hv
      cases hB : (r1.drop (r1.takeWhile isJsWs).length).takeWhile
          (fun c => !(isJsWs c) && c != '"' && c != '\'') with
      | nil => rfl
      | cons a t =>
        rw [hB] at hve
        exact absurd hve (by simp)
    · rw [if_neg hve] at h'
      exact Option.noConfusion h'

theorem tryBearer_none_head {c : Char} (t : List Char)
    (h : (c.toLower == 'b') = false) : tryBearer (c :: t) = none := by
  simp only [tryBearer, ciStrip_none_head _ t h]

/-- What may legally follow a full bearer replacement block. -/
def BearerTerm : List Char → Prop
  | [] => True
  | c :: _ => (!(isJsWs c) && c != '"' && c != '\'') = false

/-- The text just after a bearer match fails the value class. -/
theorem tryBearer_term {l rep : List Char} {n : Nat} (h : tryBearer l = some (rep, n)) :
    BearerTerm (l.drop (n + 1)) := by
  obtain ⟨bt, r1, -, hl, hmap, -, -, -, hn⟩ := tryBearer_spec h
  have h6 : bt.length = 6 := by
    have hlm := congrArg List.length hmap
    rw [List.length_map] at hlm
    exact hlm
  have hdrop : l.drop (n + 1) =
      (r1.drop (r1.takeWhile isJsWs).length).drop
        ((r1.drop (r1.takeWhile isJsWs).length).takeWhile
          (fun c => !(isJsWs c) && c != '"' && c != '\'')).length := by
    rw [hl, hn, ← h6, Nat.add_assoc, List.drop_append, List.drop_drop, Nat.add_comm]
  rw [hdrop]
  cases hz : (r1.drop (r1.takeWhile isJsWs).length).drop
      ((r1.drop (r1.takeWhile isJsWs).length).takeWhile
        (fun c => !(isJsWs c) && c != '"' && c != '\'')).length with
  | nil => trivial
  | cons b z' =>
    show (!(isJsWs b) && b != '"' && b != '\'') = false
    have hg := congrArg (fun l => l.get? 0) hz
    simp only [List.get?_cons_zero] at hg
    rw [List.get?_drop, Nat.add_zero] at hg
    have hmax := takeWhile_maximal
      (q := fun c => !(isJsWs c) && c != '"' && c != '\'') hg
    exact hmax

/-- Every nonempty suffix of a bearer block after the first character is
dead for the bearer pattern. -/
theorem bearer_block_tail_none {b : Char} {s₃ : List Char}
    (hmem : b ∈ "earer ***".data) (z : List Char) : tryBearer (b :: s₃ ++ z) = none := by
  apply tryBearer_none_head
  have hfact : ∀ x ∈ "earer ***".data, (x.toLower == 'b') = false := by decide
  exact hfact b hmem

/-- A bearer replacement block, followed by legal terminator text, rematches
exactly itself. -/
theorem tryBearer_block {w : List Char} (hw : BearerTerm w) :
    tryBearer ("Bearer ***".data ++ w) = some ("Bearer ***".data, 9) := by
  have h1 : ciStrip "bearer".data ("Bearer ***".data ++ w) =
      some ("Bearer".data, " ***".data ++ w) :=
    ciStrip_of_map (o := "Bearer".data) (p := "bearer".data) (by decide) (" ***".data ++ w)
  have hws : (" ***".data ++ w).takeWhile isJsWs = [' '] := by
    show ((' ' :: ("***".data ++ w)).takeWhile isJsWs) = [' ']
    rw [List.takeWhile_cons, if_pos (by decide),
      show ("***".data ++ w).takeWhile isJsWs = [] from by
        rw [show ("***".data ++ w) = '*' :: ("**".data ++ w) from rfl,
          List.takeWhile_cons, if_neg (by decide)]]
  have hv : ("***".data ++ w).takeWhile
      (fun c => !(isJsWs c) && c != '"' && c != '\'') = "***".data := by
    show (('*' :: '*' :: '*' :: w).takeWhile
      (fun c => !(isJsWs c) && c != '"' && c != '\'')) = "***".data
    rw [List.takeWhile_cons, if_pos (by decide), List.takeWhile_cons, if_pos (by decide),
      List.takeWhile_cons, if_pos (by decide)]
    cases w with
    | nil => rfl
    | cons b w' =>
      have hb : (!(isJsWs b) && b != '"' && b != '\'') = false := hw
      rw [List.takeWhile_cons, if_neg (by simp [hb])]
  simp only [tryBearer, h1]
  rw [hws,
    show ((" ***".data ++ w).drop ([' '] : List Char).length) = "***".data ++ w from rfl,
    hv, if_neg (by decide), if_neg (by decide)]
  rfl

/-- The cut lemma for the bearer pattern. -/
theorem bearer_cut {A u : List Char} {e : Char} (v : List Char)
    (hnone : tryBearer (A ++ u) = none)
    (hAne : A ≠ [])
    (he1 : isJsWs e = false)
    (he3 : ∀ pc ∈ "earer".data, (e.toLower == pc) = false)
    (hstruct :
      (∃ W hd2 u₂, u = W ++ hd2 :: u₂ ∧ (∀ a ∈ W, isJsWs a = true) ∧
        isJsWs hd2 = false ∧ (!(isJsWs hd2) && hd2 != '"' && hd2 != '\'') = true) ∨
      (∃ A₀ cl, A = A₀ ++ [cl] ∧ isJsWs cl = false)) :
    tryBearer (A ++ e :: v) = none := by
  cases hy : tryBearer (A ++ e :: v) with
  | none => rfl
  | some p =>
    exfalso
    obtain ⟨rep, n⟩ := p
    obtain ⟨bt, r1, hcs, -, hmap, hws, hv, -, -⟩ := tryBearer_spec hy
    have hble : bt.length ≤ A.length := by
      by_contra hgt
      push_neg at hgt
      obtain ⟨c', w', hw', pc, hpc, hlow⟩ := ciStrip_cross hcs hgt
      obtain ⟨rfl, -⟩ := List.cons.injEq .. |>.mp hw'
      obtain ⟨a0, A', rfl⟩ := List.exists_cons_of_ne_nil hAne
      rw [List.length_cons] at hpc
      have hpc' : "earer".data.get? A'.length = some pc := hpc
      have hss := he3 pc (get?_mem' hpc')
      rw [hlow] at hss
      simp at hss
    obtain ⟨B, hAB, hr1, hrecon⟩ := ciStrip_confine hcs hble
    have hcso := hrecon u
    subst hr1
    rcases takeWhile_append_split isJsWs B (e :: v) with ⟨htB, a, ha, hpa⟩ | ⟨hallB, htB⟩
    · -- the whitespace run stops inside `B`
      rw [htB] at hws hv
      have hklen : (B.takeWhile isJsWs).length ≤ B.length :=
        (List.takeWhile_prefix _).length_le
      rw [List.drop_append_of_le_length hklen] at hv
      have htBo : ∀ z, (B ++ z).takeWhile isJsWs = B.takeWhile isJsWs := by
        intro z
        rcases takeWhile_append_split isJsWs B z with ⟨h1, -⟩ | ⟨hall2, -⟩
        · exact h1
        · exact absurd (hall2 a (get?_mem' ha)) (by simp [hpa])
      have hvo : (((B.drop (B.takeWhile isJsWs).length) ++ u).takeWhile
          (fun c => !(isJsWs c) && c != '"' && c != '\'')) ≠ [] := by
        rcases takeWhile_append_split (fun c => !(isJsWs c) && c != '"' && c != '\'')
            (B.drop (B.takeWhile isJsWs).length) (e :: v) with ⟨h1, b, hb, hpb⟩ | ⟨hall2, h2⟩
        · rcases takeWhile_append_split (fun c => !(isJsWs c) && c != '"' && c != '\'')
              (B.drop (B.takeWhile isJsWs).length) u with ⟨h3, -⟩ | ⟨hall3, -⟩
          · rw [h3, ← h1]
            exact hv
          · exact absurd (hall3 b (get?_mem' hb)) (by simp [hpb])
        · have hlt : (B.takeWhile isJsWs).length < B.length := by
            by_contra hge
            push_neg at hge
            rw [List.get?_eq_none.mpr hge] at ha
            exact Option.noConfusion ha
          have hkne : B.drop (B.takeWhile isJsWs).length ≠ [] := by
            intro h0
            have hld := congrArg List.length h0
            rw [List.length_drop] at hld
            simp at hld
            omega
          rcases takeWhile_append_split (fun c => !(isJsWs c) && c != '"' && c != '\'')
              (B.drop (B.takeWhile isJsWs).length) u with ⟨-, b, hb, hpb⟩ | ⟨-, h4⟩
          · exact absurd (hall2 b (get?_mem' hb)) (by simp [hpb])
          · rw [h4]
            intro h0
            exact hkne (List.append_eq_nil.mp h0).1
      have hws' : ((B ++ u).takeWhile isJsWs) ≠ [] := by
        rw [htBo u]
        exact hws
      have hv' : (((B ++ u).drop ((B ++ u).takeWhile isJsWs).length).takeWhile
          (fun c => !(isJsWs c) && c != '"' && c != '\'')) ≠ [] := by
        rw [htBo u, List.drop_append_of_le_length hklen]
        exact hvo
      exact absurd hnone (tryBearer_parts hcso hws' hv')
    · -- the whole of `B` is whitespace
      have htBe : (B ++ e :: v).takeWhile isJsWs = B := by
        rw [htB, show (e :: v).takeWhile isJsWs = [] from by
          rw [List.takeWhile_cons, if_neg (by simp [he1])], List.append_nil]
      rw [htBe] at hws
      rcases hstruct with ⟨W, hd2, u₂, rfl, hallW, hd2ws, hd2v⟩ | ⟨A₀, cl, hA₀, hclws⟩
      · have hwso : ((B ++ (W ++ hd2 :: u₂)).takeWhile isJsWs) = B ++ W := by
          rw [takeWhile_append_all _ hallB, takeWhile_append_all _ hallW,
            show (hd2 :: u₂).takeWhile isJsWs = [] from by
              rw [List.takeWhile_cons, if_neg (by simp [hd2ws])],
            List.append_nil]
        refine absurd hnone (tryBearer_parts hcso ?_ ?_)
        · rw [hwso]
          intro h0
          exact hws (List.append_eq_nil.mp h0).1
        · rw [hwso, show (B ++ (W ++ hd2 :: u₂)) = (B ++ W) ++ hd2 :: u₂ from by
            rw [List.append_assoc], List.drop_left, List.takeWhile_cons, if_pos hd2v]
          simp
      · by_cases hBnil : B = []
        · exact absurd hBnil hws
        · have hBdrop : B = A.drop bt.length := by
            rw [hAB, List.drop_left]
          have hble2 : bt.length ≤ A₀.length := by
            have hc := congrArg List.length hAB
            rw [List.length_append] at hc
            have h₀ := congrArg List.length hA₀
            rw [List.length_append] at h₀
            simp at h₀
            have hBpos : 0 < B.length := List.length_pos.mpr hBnil
            omega
          have hclmem : cl ∈ B := by
            rw [hBdrop, hA₀, List.drop_append_of_le_length hble2]
            exact List.mem_append.mpr (Or.inr (List.mem_cons_self cl []))
          have hcl := hallB cl hclmem
          rw [hclws] at hcl
          exact Bool.noConfusion hcl

/-- Bearer stability: every suffix either has no bearer match, or is a
literal replacement block followed by terminator text. -/
def BearerSafe (l : List Char) : Prop :=
  ∀ t, t <:+ l → tryBearer t = none ∨
    ∃ w, t = "Bearer ***".data ++ w ∧ BearerTerm w

theorem bearerSafe_selfStable {l : List Char} (h : BearerSafe l) :
    SelfStable tryBearer l := by
  intro t ht
  rcases h t ht with hn | ⟨w, rfl, hterm⟩
  · simp only [tryOk, hn]
  · simp only [tryOk, tryBearer_block hterm]
    show ("Bearer ***".data : List Char) = ("Bearer ***".data ++ w).take (9 + 1)
    exact (List.take_left _ _).symm

theorem bearerSafe_id {l : List Char} (h : BearerSafe l) :
    globalReplace tryBearer l = l :=
  scan_id_of_selfStable tryBearer l (bearerSafe_selfStable h)

/-! ### Establishment: the bearer pass leaves a bearer-stable string -/

theorem bearerSafe_scan1 : ∀ (N : Nat) (x A : List Char), x.length ≤ N →
    (∀ s, s <:+ A → s ≠ [] → (tryBearer (s ++ x) = none ∨
      ∃ w, s ++ x = "Bearer ***".data ++ w ∧ BearerTerm w)) →
    ∀ t, t <:+ A ++ globalReplace tryBearer x →
      tryBearer t = none ∨ ∃ w, t = "Bearer ***".data ++ w ∧ BearerTerm w := by
  intro N
  induction N with
  | zero =>
    intro x A hlen hleft t ht
    have hx : x = [] := List.eq_nil_of_length_eq_zero (Nat.le_zero.mp hlen)
    subst hx
    rw [show globalReplace tryBearer [] = [] from rfl, List.append_nil] at ht
    cases t with
    | nil => exact Or.inl rfl
    | cons a t' =>
      have h := hleft (a :: t') ht (List.cons_ne_nil a t')
      rw [List.append_nil] at h
      exact h
  | succ N ih =>
    intro x A hlen hleft
    rcases scan_decomp tryBearer rfl x with hnone | ⟨P, c, rest, rep, n, hx, hpre, hmatch, heq⟩
    · rw [globalReplace_id_of_noMatch tryBearer x hnone]
      intro t ht
      rcases suffix_append_cases ht with htx | ⟨s, hsA, rfl⟩
      · exact Or.inl (hnone t htx)
      · cases s with
        | nil => exact Or.inl (hnone x List.suffix_rfl)
        | cons a s' => exact hleft (a :: s') hsA (List.cons_ne_nil a s')
    · obtain ⟨bt, r1, hcs, hcr, hmap, hws1, hv1, hrepeq, hneq⟩ := tryBearer_spec hmatch
      subst hrepeq
      obtain ⟨b0, bt', hbt, hb0, -⟩ := map_toLower_cons hmap
      rw [hbt, List.cons_append] at hcr
      injection hcr with hc0 hrest
      rw [← hc0] at hb0
      have hcl : c.toLower = 'b' := hb0
      have hcws : isJsWs c = false := by
        rcases toLower_eq_letter 'B' hcl (by decide) with rfl | rfl <;> decide
      have hcv : (!(isJsWs c) && c != '"' && c != '\'') = true := by
        rcases toLower_eq_letter 'B' hcl (by decide) with rfl | rfl <;> decide
      have hterm : BearerTerm (rest.drop n) := tryBearer_term hmatch
      have hleft2 : ∀ s, s <:+ (A ++ P) ++ "Bearer ***".data → s ≠ [] →
          (tryBearer (s ++ rest.drop n) = none ∨
            ∃ w, s ++ rest.drop n = "Bearer ***".data ++ w ∧ BearerTerm w) := by
        intro s hsuf hsne
        rcases suffix_append_cases hsuf with hsrep | ⟨s₂, hs₂, rfl⟩
        · rcases List.suffix_cons_iff.mp hsrep with rfl | hsrep
          · exact Or.inr ⟨rest.drop n, rfl, hterm⟩
          · cases s with
            | nil => exact absurd rfl hsne
            | cons b s₃ =>
              left
              have hbm : b ∈ "earer ***".data := by
                obtain ⟨q, hq⟩ := hsrep
                have hmm : b ∈ q ++ b :: s₃ :=
                  List.mem_append.mpr (Or.inr (List.mem_cons_self b s₃))
                rw [hq] at hmm
                exact hmm
              exact bearer_block_tail_none hbm _
        · cases s₂ with
          | nil => exact Or.inr ⟨rest.drop n, by rw [List.nil_append], hterm⟩
          | cons b s₃ =>
            have horig : tryBearer ((b :: s₃) ++ (c :: rest)) = none ∨
                ∃ w₀, (b :: s₃) ++ (c :: rest) = "Bearer ***".data ++ w₀ ∧
                  BearerTerm w₀ := by
              rcases suffix_append_cases hs₂ with hsP | ⟨s₄, hs₄, hfeq⟩
              · exact Or.inl (scan_pre_none tryBearer hx hpre hsP (List.cons_ne_nil b s₃))
              · cases s₄ with
                | nil =>
                  rw [List.nil_append] at hfeq
                  have hs : (b :: s₃) <:+ P := by rw [hfeq]
                  exact Or.inl (scan_pre_none tryBearer hx hpre hs (List.cons_ne_nil b s₃))
                | cons d s₅ =>
                  have h5 := hleft (d :: s₅) hs₄ (List.cons_ne_nil d s₅)
                  rw [hx] at h5
                  rw [hfeq, List.append_assoc]
                  exact h5
            rcases horig with hnone2 | ⟨w₀, hblk, hterm₀⟩
            · left
              have hcut := bearer_cut (A := b :: s₃) (u := c :: rest) (e := 'B')
                ("earer ***".data ++ rest.drop n) hnone2 (List.cons_ne_nil b s₃)
                (by decide) (by decide)
                (Or.inl ⟨[], c, rest, rfl,
                  fun a ha => absurd ha (List.not_mem_nil a), hcws, hcv⟩)
              rw [show ("Bearer ***".data : List Char) = 'B' :: "earer ***".data from rfl]
              simp only [List.append_assoc, List.cons_append] at hcut ⊢
              exact hcut
            · by_cases hsl : 10 ≤ (b :: s₃).length
              · obtain ⟨s₂', h1, h2⟩ := split_prefix_le hblk hsl
                right
                refine ⟨s₂' ++ ("Bearer ***".data ++ rest.drop n), ?_, ?_⟩
                · rw [h1]
                  simp only [List.append_assoc]
                · cases s₂' with
                  | nil =>
                    exfalso
                    rw [h2] at hterm₀
                    have hkk : (!(isJsWs c) && c != '"' && c != '\'') = false := hterm₀
                    rw [hcv] at hkk
                    exact Bool.noConfusion hkk
                  | cons bb s₂'' =>
                    rw [h2] at hterm₀
                    exact hterm₀
              · exfalso
                push_neg at hsl
                have hgc : ("Bearer ***".data ++ w₀).get? (b :: s₃).length = some c := by
                  rw [← hblk, List.get?_append_right le_rfl]
                  simp
                rw [List.get?_append
                  (show (b :: s₃).length < ("Bearer ***".data : List Char).length
                    from hsl)] at hgc
                rw [List.length_cons] at hgc
                have hgc' : "earer ***".data.get? s₃.length = some c := hgc
                have hfact : ∀ x ∈ "earer ***".data, (x.toLower == 'b') = false := by decide
                have hbb := hfact c (get?_mem' hgc')
                rw [hcl] at hbb
                exact absurd hbb (by decide)
      have hlen2 : (rest.drop n).length ≤ N := by
        have hxlen := congrArg List.length hx
        rw [List.length_append, List.length_cons] at hxlen
        have hdl : (rest.drop n).length = rest.length - n := List.length_drop n rest
        omega
      intro t ht
      rw [heq] at ht
      apply ih (rest.drop n) ((A ++ P) ++ "Bearer ***".data) hlen2 hleft2 t
      simp only [List.append_assoc]
      exact ht

theorem bearerSafe_f1 (x : List Char) : BearerSafe (globalReplace tryBearer x) := by
  intro t ht
  exact bearerSafe_scan1 x.length x [] le_rfl
    (fun s hs hne => absurd (List.suffix_nil.mp hs) hne) t ht

/-!
## The structural sanitizer (`redactValueByKey`, `sanitizeArgs`)

JS runtime values are embedded with composite inputs living in a heap
(`RVal.rref` is an object identity), so cyclic argument graphs are
representable.  `JSON.stringify(value, replacer)` composed with
`JSON.parse` is embedded as `stringifyParse`, following ECMA-262 §25.5.2:
`stringify` wraps the root in `{"": value}` and calls
`SerializeJSONProperty` with key `""`, which applies the replacer *to the
root value itself* before serializing; `SerializeJSONObject` /
`SerializeJSONArray` keep a stack of the object identities currently being
serialized and throw a `TypeError` on a repeat (circular structure).  The
`fuel` parameter models the JS call stack: `none` means the computation did
not complete within `fuel` nested calls, so a result that is `none` for
*every* fuel is a genuine infinite recursion in the source. -/

/-- JS values: `rnull`/`rundef`/`rbool`/`rnum`/`rstr` are primitives,
`rref a` is a reference to heap object `a` (arrays and plain objects of the
input argument graph), and `rarr`/`robj` are the fresh acyclic trees
produced by `JSON.parse`. Numbers are restricted to integers; no claim
involves non-integral or non-finite numbers. -/
inductive RVal where
  | rnull
  | rundef
  | rbool (b : Bool)
  | rnum (n : Int)
  | rstr (s : String)
  | rref (a : Nat)
  | rarr (elems : List RVal)
  | robj (props : List (String × RVal))

/-- A heap object: an array or a plain object with insertion-ordered
properties. -/
inductive HObj where
  | harr (elems : List RVal)
  | hobj (props : List (String × RVal))

/-- The heap: object identity `a` denotes `h.get? a`. -/
abbrev Heap := List HObj

/-- `typeof v === "object" && v !== null`. -/
def isObjectTy : RVal → Bool
  | RVal.rref _ => true
  | RVal.rarr _ => true
  | RVal.robj _ => true
  | _ => false

/-- `key.toLowerCase()` (ASCII lowercasing; `String.prototype.toLowerCase`
agrees with this on ASCII keys, and all key classes of the source are
ASCII). -/
def lowerKey (s : String) : String := String.mk (s.data.map Char.toLower)

/-- Keys fully masked to `"***"` (string values). -/
def fullMaskKeys : List String :=
  ["password", "pass", "pwd", "secret", "token", "auth", "authorization",
   "applepassword"]

/-- Keys masked to `"******"` (string values). -/
def codeMaskKeys : List String := ["code", "otp", "2fa", "twofactor", "two_factor"]

/-- Keys partially masked with `maskEmail` (string values). -/
def idMaskKeys : List String := ["email", "appleid", "apple_id", "username", "user"]

/-- Keys whose numeric values are zeroed. -/
def numCodeKeys : List String := ["code", "otp", "2fa"]

mutual

/-- `redactValueByKey(key, value)` from `src/redaction.ts`.  The first two
cases are `value == null` (null or undefined); the last composite case is
the `typeof value === "object"` branch:
`try { return JSON.parse(JSON.stringify(value, (p, v) => redactValueByKey(p, v))) }
 catch { return value }` — a thrown error (`Except.error`), or a
`JSON.stringify` result of `undefined` (which would make `JSON.parse`
throw), falls back to the **raw** value. -/
def redactValueByKey (fuel : Nat) (h : Heap) (key : String) (value : RVal) :
    Option RVal :=
  match fuel with
  | 0 => none
  | fuel + 1 =>
    match value with
    | RVal.rnull => some RVal.rnull
    | RVal.rundef => some RVal.rundef
    | RVal.rstr s =>
      let k := lowerKey key
      if fullMaskKeys.contains k then some (RVal.rstr "***")
      else if codeMaskKeys.contains k then some (RVal.rstr "******")
      else if idMaskKeys.contains k then some (RVal.rstr (maskEmail s))
      else some (RVal.rstr (redactString s))
    | RVal.rnum n =>
      if numCodeKeys.contains (lowerKey key) then some (RVal.rnum 0)
      else some (RVal.rnum n)
    | RVal.rbool b => some (RVal.rbool b)
    | v =>
      match stringifyParse fuel h v with
      | none => none
      | some (Except.error _) => some v
      | some (Except.ok none) => some v
      | some (Except.ok (some w)) => some w

/-- `JSON.parse(JSON.stringify(v, (p, val) => redactValueByKey(p, val)))`,
returning the parsed value directly (`JSON.parse` inverts serialization on
every value `JSON.stringify` can emit).  Per ECMA-262, serialization starts
with `SerializeJSONProperty(key = "", holder = {"": v})` — i.e. the replacer
is applied to the root value first. -/
def stringifyParse (fuel : Nat) (h : Heap) (v : RVal) :
    Option (Except Unit (Option RVal)) :=
  match fuel with
  | 0 => none
  | fuel + 1 => serProp fuel h [] "" v

/-- `SerializeJSONProperty`: apply the replacer, then serialize the result.
`Except.ok none` means the property serializes to undefined (skipped in
objects, `null` in arrays). -/
def serProp (fuel : Nat) (h : Heap) (stack : List Nat) (key : String) (v : RVal) :
    Option (Except Unit (Option RVal)) :=
  match fuel with
  | 0 => none
  | fuel + 1 =>
    match redactValueByKey fuel h key v with
    | none => none
    | some w => serVal fuel h stack w

/-- Serialization of an already-replaced value: primitives map to
themselves, `undefined` to "no output"; a heap reference already on the
serialization stack throws (circular structure); otherwise members are
serialized with `serArr`/`serObj`. -/
def serVal (fuel : Nat) (h : Heap) (stack : List Nat) (v : RVal) :
    Option (Except Unit (Option RVal)) :=
  match fuel with
  | 0 => none
  | fuel + 1 =>
    match v with
    | RVal.rundef => some (Except.ok none)
    | RVal.rnull => some (Except.ok (some RVal.rnull))
    | RVal.rbool b => some (Except.ok (some (RVal.rbool b)))
    | RVal.rnum n => some (Except.ok (some (RVal.rnum n)))
    | RVal.rstr s => some (Except.ok (some (RVal.rstr s)))
    | RVal.rarr es =>
      match serArr fuel h stack 0 es with
      | none => none
      | some (Except.error e) => some (Except.error e)
      | some (Except.ok ws) => some (Except.ok (some (RVal.rarr ws)))
    | RVal.robj ps =>
      match serObj fuel h stack ps with
      | none => none
      | some (Except.error e) => some (Except.error e)
      | some (Except.ok ws) => some (Except.ok (some (RVal.robj ws)))
    | RVal.rref a =>
      if stack.contains a then some (Except.error ())
      else
        match h.get? a with
        | none => some (Except.ok (some RVal.rnull))
        | some (HObj.harr es) =>
          match serArr fuel h (a :: stack) 0 es with
          | none => none
          | some (Except.error e) => some (Except.error e)
          | some (Except.ok ws) => some (Except.ok (some (RVal.rarr ws)))
        | some (HObj.hobj ps) =>
          match serObj fuel h (a :: stack) ps with
          | none => none
          | some (Except.error e) => some (Except.error e)
          | some (Except.ok ws) => some (Except.ok (some (RVal.robj ws)))

/-- `SerializeJSONArray` members: each element goes through
`SerializeJSONProperty` with its index string as key; an undefined result
becomes `null`. -/
def serArr (fuel : Nat) (h : Heap) (stack : List Nat) (i : Nat) (es : List RVal) :
    Option (Except Unit (List RVal)) :=
  match fuel with
  | 0 => none
  | fuel + 1 =>
    match es with
    | [] => some (Except.ok [])
    | e :: rest =>
      match serProp fuel h stack (toString i) e with
      | none => none
      | some (Except.error er) => some (Except.error er)
      | some (Except.ok w) =>
        match serArr fuel h stack (i + 1) rest with
        | none => none
        | some (Except.error er) => some (Except.error er)
        | some (Except.ok ws) => some (Except.ok ((w.getD RVal.rnull) :: ws))

/-- `SerializeJSONObject` members: each property goes through
`SerializeJSONProperty` with its key; an undefined result skips the
property. -/
def serObj (fuel : Nat) (h : Heap) (stack : List Nat)
    (ps : List (String × RVal)) : Option (Except Unit (List (String × RVal))) :=
  match fuel with
  | 0 => none
  | fuel + 1 =>
    match ps with
    | [] => some (Except.ok [])
    | (k, pv) :: rest =>
      match serProp fuel h stack k pv with
      | none => none
      | some (Except.error er) => some (Except.error er)
      | some (Except.ok none) => serObj fuel h stack rest
      | some (Except.ok (some w)) =>
        match serObj fuel h stack rest with
        | none => none
        | some (Except.error er) => some (Except.error er)
        | some (Except.ok ws) => some (Except.ok ((k, w) :: ws))

end

/-- `sanitizeArgs(args)` from `src/redaction.ts`: strings are scrubbed with
`redactString`; objects go through the `JSON.stringify`/`JSON.parse` round
trip with `redactValueByKey` as replacer, with `catch { return arg }`
falling back to the **raw** argument; all other values pass through. -/
def sanitizeArgs (fuel : Nat) (h : Heap) (args : List RVal) : Option (List RVal) :=
  match fuel with
  | 0 => none
  | fuel + 1 =>
    match args with
    | [] => some []
    | arg :: rest =>
      let r1 : Option RVal :=
        match arg with
        | RVal.rstr s => some (RVal.rstr (redactString s))
        | RVal.rref _ | RVal.rarr _ | RVal.robj _ =>
          match stringifyParse fuel h arg with
          | none => none
          | some (Except.error _) => some arg
          | some (Except.ok none) => some arg
          | some (Except.ok (some w)) => some w
        | _ => some arg
      match r1 with
      | none => none
      | some w =>
        match sanitizeArgs fuel h rest with
        | none => none
        | some ws => some (w :: ws)

/-!
## The infinite recursion of the object branch

`JSON.stringify(value, replacer)` invokes the replacer on the root value
itself (key `""`).  The replacer is `(p, v) => redactValueByKey(p, v)`, and
`redactValueByKey` on any object re-invokes `JSON.stringify` on that same
object — so the mutual recursion never reaches a base case, whatever the
heap contains.  The project changelog records this: "[1.2.1] Fixed infinite
recursion bug in `inspect()` and `sanitizeArgs()` that caused redaction to
silently fail for nested objects"; the sources under verification predate
the fix. -/

theorem redactValueByKey_obj_none :
    ∀ (fuel : Nat) (h : Heap) (key : String) (v : RVal),
      isObjectTy v = true → redactValueByKey fuel h key v = none := by
  intro fuel
  induction fuel using Nat.strong_induction_on with
  | _ fuel ih =>
    intro h key v hv
    match fuel, v, hv with
    | 0, _, _ => rfl
    | 1, RVal.rref a, _ => rfl
    | 1, RVal.rarr es, _ => rfl
    | 1, RVal.robj ps, _ => rfl
    | 2, RVal.rref a, _ => rfl
    | 2, RVal.rarr es, _ => rfl
    | 2, RVal.robj ps, _ => rfl
    | (f + 3), RVal.rref a, _ =>
      have hr := ih f (by omega) h "" (RVal.rref a) rfl
      simp [redactValueByKey, stringifyParse, serProp, hr]
    | (f + 3), RVal.rarr es, _ =>
      have hr := ih f (by omega) h "" (RVal.rarr es) rfl
      simp [redactValueByKey, stringifyParse, serProp, hr]
    | (f + 3), RVal.robj ps, _ =>
      have hr := ih f (by omega) h "" (RVal.robj ps) rfl
      simp [redactValueByKey, stringifyParse, serProp, hr]

theorem stringifyParse_obj_none (fuel : Nat) (h : Heap) (v : RVal)
    (hv : isObjectTy v = true) : stringifyParse fuel h v = none := by
  match fuel with
  | 0 => rfl
  | 1 =>
    match v, hv with
    | RVal.rref a, _ => rfl
    | RVal.rarr es, _ => rfl
    | RVal.robj ps, _ => rfl
  | (f + 2) =>
    have hr := redactValueByKey_obj_none f h "" v hv
    simp [stringifyParse, serProp, hr]

theorem sanitizeArgs_obj_head_none (fuel : Nat) (h : Heap) (arg : RVal)
    (rest : List RVal) (hv : isObjectTy arg = true) :
    sanitizeArgs fuel h (arg :: rest) = none := by
  match fuel with
  | 0 => rfl
  | (f + 1) =>
    have hr := stringifyParse_obj_none f h arg hv
    match arg, hv with
    | RVal.rref a, _ => simp [sanitizeArgs, hr]
    | RVal.rarr es, _ => simp [sanitizeArgs, hr]
    | RVal.robj ps, _ => simp [sanitizeArgs, hr]

/-! Concrete argument graphs used by the claims. -/

/-- The one-argument list `[{secret: "x", self: <the object itself>}]`: a
mapping whose reconstruction fails (`JSON.stringify` throws on the circular
reference). -/
def heapFailing : Heap := [HObj.hobj [("secret", RVal.rstr "x"), ("self", RVal.rref 0)]]

/-- `[{self: <the object itself>}]`: the minimal cyclic mapping. -/
def heapCycle : Heap := [HObj.hobj [("self", RVal.rref 0)]]

/-- `[{token: "abc"}]`. -/
def heapToken : Heap := [HObj.hobj [("token", RVal.rstr "abc")]]

/-- `[{code: 123456}]`. -/
def heapCodeNum : Heap := [HObj.hobj [("code", RVal.rnum 123456)]]

/-- `[{token: "abc"}, {token: "def"}]`. -/
def heapPair : Heap :=
  [HObj.hobj [("token", RVal.rstr "abc")], HObj.hobj [("token", RVal.rstr "def")]]

/-- `[{email: "user@example.com"}]`. -/
def heapEmail : Heap := [HObj.hobj [("email", RVal.rstr "user@example.com")]]

/-!
## Strings without secret-shaped substrings are left unchanged
-/

/-- Does the pattern implemented by `try1` match at some position of `l`,
i.e. does the string contain a substring matched by that regex? -/
def hasMatch (try1 : List Char → Option (List Char × Nat)) : List Char → Bool
  | [] => false
  | c :: rest => (try1 (c :: rest)).isSome || hasMatch try1 rest

theorem globalReplaceAux_no_match (try1 : List Char → Option (List Char × Nat)) :
    ∀ (fuel : Nat) (l : List Char), hasMatch try1 l = false →
      globalReplaceAux try1 fuel l = l := by
  intro fuel
  induction fuel with
  | zero => intro l _; cases l <;> rfl
  | succ f ihf =>
    intro l hm
    cases l with
    | nil => rfl
    | cons c rest =>
      simp only [hasMatch, Bool.or_eq_false_iff] at hm
      obtain ⟨h1, h2⟩ := hm
      cases ht : try1 (c :: rest) with
      | none => simp [globalReplaceAux, ht, ihf rest h2]
      | some p => rw [ht] at h1; simp at h1

theorem globalReplace_no_match (try1 : List Char → Option (List Char × Nat))
    (l : List Char) (hm : hasMatch try1 l = false) :
    globalReplace try1 l = l :=
  globalReplaceAux_no_match try1 l.length l hm

/-!
## Key-class disjointness helpers
-/

theorem idMask_not_other {k : String} (hk : k ∈ idMaskKeys) :
    k ∉ fullMaskKeys ∧ k ∉ codeMaskKeys := by
  simp only [idMaskKeys, List.mem_cons, List.not_mem_nil, or_false] at hk
  rcases hk with h | h | h | h | h <;> subst h <;> decide

/-!
## Claims
-/

/-- **C1** (code_bug).  The claim: when reconstruction of a mapping fails
during sanitization, the sanitizer catches the failure locally and returns a
fully-masked placeholder, never the raw value and never an exception.  In
the code, the `catch` branches return the **raw** value (`return value;` in
`redactValueByKey`, `return arg;` in `sanitizeArgs`), and they are not even
reachable: on every object argument — here `[{secret: "x", self: <cycle>}]`,
whose serialization would throw — `sanitizeArgs` never completes at any call
depth (the stringify replacer re-enters `redactValueByKey` on the root,
which re-invokes `JSON.stringify` on the same object). -/
theorem claim_C1 : ∀ fuel : Nat, sanitizeArgs fuel heapFailing [RVal.rref 0] = none :=
  fun fuel => sanitizeArgs_obj_head_none fuel heapFailing (RVal.rref 0) [] rfl

/-- **C2** (code_bug).  The claim: on a cyclic mapping, `sanitizeArgs`
returns without looping forever and replaces the self-referential branch by
an empty container.  In the code there is no visited-set: sanitizing
`[{self: <the object itself>}]` never completes at any call depth, and no
empty-container replacement exists anywhere in the sources. -/
theorem claim_C2 : ∀ fuel : Nat, sanitizeArgs fuel heapCycle [RVal.rref 0] = none :=
  fun fuel => sanitizeArgs_obj_head_none fuel heapCycle (RVal.rref 0) [] rfl

/-- **C3** (code_bug).  The claim: `{K: S}` sanitizes to `{K: "***"}` for
every full-mask key `K` and string `S`.  The key-based rule itself behaves
exactly as claimed (second conjunct), but the sanitizer-level result is
unreachable: `sanitizeArgs` on `[{token: "abc"}]` never completes at any
call depth (first conjunct). -/
theorem claim_C3 :
    (∀ fuel : Nat, sanitizeArgs fuel heapToken [RVal.rref 0] = none) ∧
    (∀ (fuel : Nat) (h : Heap) (key : String) (s : String),
      lowerKey key ∈ fullMaskKeys →
      redactValueByKey (fuel + 1) h key (RVal.rstr s) = some (RVal.rstr "***")) := by
  constructor
  · exact fun fuel => sanitizeArgs_obj_head_none fuel heapToken (RVal.rref 0) [] rfl
  · intro fuel h key s hk
    simp [redactValueByKey, hk]

/-- Witness for the hypothesis of the second conjunct of `claim_C3`:
`"Token"` lower-cases into the full-mask class and the rule maps
`("Token", "abc")` to `"***"`. -/
theorem claim_C3_witness :
    lowerKey "Token" ∈ fullMaskKeys ∧
    redactValueByKey 1 [] "Token" (RVal.rstr "abc") = some (RVal.rstr "***") :=
  ⟨by decide, claim_C3.2 0 [] "Token" "abc" (by decide)⟩

/-- **C4** (corrected), counterexample to the original claim: sanitizing
`{code: "123456"}` cannot yield `{code: "***"}` — the string branch of the
key rule takes the six-character 2FA mask path, not the full-mask path. -/
theorem claim_C4_counterexample :
    redactValueByKey 1 [] "code" (RVal.rstr "123456") = some (RVal.rstr "******") ∧
    RVal.rstr "******" ≠ RVal.rstr "***" :=
  ⟨rfl, by simp⟩

/-- **C4** (corrected), amended claim: at the key-rule level a number-typed
`code` is zeroed and a string-typed `code` receives the 2FA mask `"******"`
(not `"***"`); the mapping-level results (`{code: 123456} ↦ {code: 0}`) are
unreachable because `sanitizeArgs` never completes on any object argument. -/
theorem claim_C4_amended :
    (∀ (fuel : Nat) (h : Heap),
      redactValueByKey (fuel + 1) h "code" (RVal.rnum 123456) = some (RVal.rnum 0) ∧
      redactValueByKey (fuel + 1) h "code" (RVal.rstr "123456") = some (RVal.rstr "******")) ∧
    (∀ fuel : Nat, sanitizeArgs fuel heapCodeNum [RVal.rref 0] = none) :=
  ⟨fun _ _ => ⟨rfl, rfl⟩,
   fun fuel => sanitizeArgs_obj_head_none fuel heapCodeNum (RVal.rref 0) [] rfl⟩

/-- **C5** (code_bug).  The claim: sanitization preserves structural shape,
in particular `[{token: "abc"}, {token: "def"}]` sanitizes to
`[{token: "***"}, {token: "***"}]`.  There is no output to preserve the
shape of: `sanitizeArgs` on that argument list never completes at any call
depth. -/
theorem claim_C5 :
    ∀ fuel : Nat, sanitizeArgs fuel heapPair [RVal.rref 0, RVal.rref 1] = none :=
  fun fuel => sanitizeArgs_obj_head_none fuel heapPair (RVal.rref 0) [RVal.rref 1] rfl

/-- **C6** (code_bug).  The claim: an identifier-class key maps any string
value to its email-style partial mask, e.g. `{email: "user@example.com"}`
sanitizes to `{email: "u***@example.com"}`.  The key rule does exactly that
(third conjunct, for every string, email-shaped or not) and
`maskEmail "user@example.com" = "u***@example.com"` (second conjunct), but
the sanitizer-level result is unreachable: `sanitizeArgs` on
`[{email: "user@example.com"}]` never completes at any call depth. -/
theorem claim_C6 :
    (∀ fuel : Nat, sanitizeArgs fuel heapEmail [RVal.rref 0] = none) ∧
    maskEmail "user@example.com" = "u***@example.com" ∧
    (∀ (fuel : Nat) (h : Heap) (key : String) (s : String),
      lowerKey key ∈ idMaskKeys →
      redactValueByKey (fuel + 1) h key (RVal.rstr s) = some (RVal.rstr (maskEmail s))) := by
  refine ⟨fun fuel => sanitizeArgs_obj_head_none fuel heapEmail (RVal.rref 0) [] rfl,
    by decide, ?_⟩
  intro fuel h key s hk
  obtain ⟨hf, hc⟩ := idMask_not_other hk
  simp [redactValueByKey, hf, hc, hk]

/-- Witness for the hypothesis of the third conjunct of `claim_C6`. -/
theorem claim_C6_witness :
    lowerKey "email" ∈ idMaskKeys ∧
    redactValueByKey 1 [] "email" (RVal.rstr "not-an-email") =
      some (RVal.rstr (maskEmail "not-an-email")) :=
  ⟨by decide, claim_C6.2.2 0 [] "email" "not-an-email" (by decide)⟩

/-- **C8** (confirmed).  `redactString` applies the six passes in the fixed
source order (the final conjunct restates the pipeline definitionally) and
`redactString "Bearer abc123def456" = "Bearer ***"`; the placeholder
`"Bearer ***"` is untouched by the key=value, code, long-hex, long-base64
and email passes, so no later pass rewrites the bearer replacement. -/
theorem claim_C8 :
    redactString "Bearer abc123def456" = "Bearer ***" ∧
    globalReplace tryKeyVal "Bearer ***".data = "Bearer ***".data ∧
    globalReplace tryCode "Bearer ***".data = "Bearer ***".data ∧
    globalReplace tryHex "Bearer ***".data = "Bearer ***".data ∧
    globalReplace tryB64 "Bearer ***".data = "Bearer ***".data ∧
    maskEmail "Bearer ***" = "Bearer ***" ∧
    (∀ s : String, redactString s =
      maskEmail (String.mk (globalReplace tryB64 (globalReplace tryHex
        (globalReplace tryCode (globalReplace tryKeyVal
          (globalReplace tryBearer s.data))))))) :=
  ⟨by decide, by decide, by decide, by decide, by decide, by decide, fun _ => rfl⟩

/-- **C9** (confirmed).  `redactString` is total by construction (it is a
Lean function into `String`; no failure paths exist), and on a string
containing no substring matched by any of the six secret patterns it is the
identity. -/
theorem claim_C9 (s : String)
    (h1 : hasMatch tryBearer s.data = false)
    (h2 : hasMatch tryKeyVal s.data = false)
    (h3 : hasMatch tryCode s.data = false)
    (h4 : hasMatch tryHex s.data = false)
    (h5 : hasMatch tryB64 s.data = false)
    (h6 : hasMatch tryEmail s.data = false) :
    redactString s = s := by
  show maskEmail (String.mk (globalReplace tryB64 (globalReplace tryHex
    (globalReplace tryCode (globalReplace tryKeyVal
      (globalReplace tryBearer s.data)))))) = s
  rw [globalReplace_no_match _ _ h1, globalReplace_no_match _ _ h2,
    globalReplace_no_match _ _ h3, globalReplace_no_match _ _ h4,
    globalReplace_no_match _ _ h5]
  show String.mk (globalReplace tryEmail s.data) = s
  rw [globalReplace_no_match _ _ h6]

/-- Witness for `claim_C9` at `"hello world 42"`. -/
theorem claim_C9_witness :
    (hasMatch tryBearer "hello world 42".data = false ∧
     hasMatch tryKeyVal "hello world 42".data = false ∧
     hasMatch tryCode "hello world 42".data = false ∧
     hasMatch tryHex "hello world 42".data = false ∧
     hasMatch tryB64 "hello world 42".data = false ∧
     hasMatch tryEmail "hello world 42".data = false) ∧
    redactString "hello world 42" = "hello world 42" :=
  ⟨⟨by decide, by decide, by decide, by decide, by decide, by decide⟩,
   claim_C9 "hello world 42" (by decide) (by decide) (by decide) (by decide)
     (by decide) (by decide)⟩

/-- **C10** (confirmed).  Key-based redaction matches keys only by exact
case-insensitive equality: when the lower-cased key is in none of the three
key classes (even if it merely contains a sensitive name, like `apiKey` or
`userPassword`), a string value is transformed by `redactString` alone. -/
theorem claim_C10 (fuel : Nat) (h : Heap) (key : String) (s : String)
    (hf : lowerKey key ∉ fullMaskKeys)
    (hc : lowerKey key ∉ codeMaskKeys)
    (hi : lowerKey key ∉ idMaskKeys) :
    redactValueByKey (fuel + 1) h key (RVal.rstr s) =
      some (RVal.rstr (redactString s)) := by
  simp [redactValueByKey, hf, hc, hi]

/-- Witness for `claim_C10` at key `"apiKey"`: not an exact member of any
key class, so only the pattern scrubber applies. -/
theorem claim_C10_witness :
    (lowerKey "apiKey" ∉ fullMaskKeys ∧
     lowerKey "apiKey" ∉ codeMaskKeys ∧
     lowerKey "apiKey" ∉ idMaskKeys) ∧
    redactValueByKey 1 [] "apiKey" (RVal.rstr "sk_live_123456") =
      some (RVal.rstr (redactString "sk_live_123456")) :=
  ⟨⟨by decide, by decide, by decide⟩,
   claim_C10 0 [] "apiKey" "sk_live_123456" (by decide) (by decide) (by decide)⟩

end Redaction
